import Mathlib

/-!
Verification of the search-and-evaluation engine of a chess program
(`src/engine.rs`): piece-square evaluation, depth-limited alpha-beta
search, and the self-play driver loop.

The move generator and check detector are external collaborators of the
engine (they live outside the verified core), so they appear here as
parameters `gen : BoardState → List BoardState` and
`check : BoardState → PieceColor → Bool`.

Machine integers (`i32`) are modelled as `Int`; the `i32::MIN` / `i32::MAX`
sentinels used by the search are the literal constants.  `u8` depths carry
the hypothesis `depth ≤ 255` where the bound matters.
-/

namespace ChessEngine

inductive PieceColor
  | White
  | Black
deriving DecidableEq, Repr

inductive PieceKind
  | Pawn
  | Knight
  | Bishop
  | Rook
  | Queen
  | King
deriving DecidableEq, Repr

open PieceColor PieceKind

structure Piece where
  kind : PieceKind
  color : PieceColor
deriving DecidableEq, Repr

inductive Square
  | Empty
  | Full (piece : Piece)
  | Boundary
deriving DecidableEq, Repr

/-- Board state as consumed by the engine: a sentinel-bordered 12×12 grid
(playable area rows/cols `2..10`), side to move, clocks and the cached
material totals.  The grid is modelled as a total function on `Nat`;
only indices below 12 are meaningful. -/
structure BoardState where
  board : Nat → Nat → Square
  to_move : PieceColor
  full_move_clock : Nat
  half_move_clock : Nat
  white_total_piece_value : Int
  black_total_piece_value : Int

def BOARD_START : Nat := 2
def BOARD_END : Nat := 10

def PAWN_WEIGHTS : List (List Int) :=
  [[0, 0, 0, 0, 0, 0, 0, 0],
   [50, 50, 50, 50, 50, 50, 50, 50],
   [10, 10, 20, 30, 30, 20, 10, 10],
   [5, 5, 10, 25, 25, 10, 5, 5],
   [0, 0, 0, 20, 20, 0, 0, 0],
   [5, -5, -10, 0, 0, -10, -5, 5],
   [5, 10, 10, -20, -20, 10, 10, 5],
   [0, 0, 0, 0, 0, 0, 0, 0]]

def KNIGHT_WEIGHTS : List (List Int) :=
  [[-50, -40, -30, -30, -30, -30, -40, -50],
   [-40, -20, 0, 0, 0, 0, -20, -40],
   [-30, 0, 10, 15, 15, 10, 0, -30],
   [-30, 5, 15, 20, 20, 15, 5, -30],
   [-30, 0, 15, 20, 20, 15, 0, -30],
   [-30, 5, 10, 15, 15, 10, 5, -30],
   [-40, -20, 0, 5, 5, 0, -20, -40],
   [-50, -40, -30, -30, -30, -30, -40, -50]]

def BISHOP_WEIGHTS : List (List Int) :=
  [[-20, -10, -10, -10, -10, -10, -10, -20],
   [-10, 0, 0, 0, 0, 0, 0, -10],
   [-10, 0, 5, 10, 10, 5, 0, -10],
   [-10, 5, 5, 10, 10, 5, 5, -10],
   [-10, 0, 10, 10, 10, 10, 0, -10],
   [-10, 10, 10, 10, 10, 10, 10, -10],
   [-10, 5, 0, 0, 0, 0, 5, -10],
   [-20, -10, -10, -10, -10, -10, -10, -20]]

def ROOK_WEIGHTS : List (List Int) :=
  [[0, 0, 0, 0, 0, 0, 0, 0],
   [5, 10, 10, 10, 10, 10, 10, 5],
   [-5, 0, 0, 0, 0, 0, 0, -5],
   [-5, 0, 0, 0, 0, 0, 0, -5],
   [-5, 0, 0, 0, 0, 0, 0, -5],
   [-5, 0, 0, 0, 0, 0, 0, -5],
   [-5, 0, 0, 0, 0, 0, 0, -5],
   [0, 0, 0, 5, 5, 0, 0, 0]]

def QUEEN_WEIGHTS : List (List Int) :=
  [[-20, -10, -10, -5, -5, -10, -10, -20],
   [-10, 0, 0, 0, 0, 0, 0, -10],
   [-10, 0, 5, 5, 5, 5, 0, -10],
   [-5, 0, 5, 5, 5, 5, 0, -5],
   [0, 0, 5, 5, 5, 5, 0, -5],
   [-10, 5, 5, 5, 5, 5, 0, -10],
   [-10, 0, 5, 0, 0, 0, 0, -10],
   [-20, -10, -10, -5, -5, -10, -10, -20]]

def KING_WEIGHTS : List (List Int) :=
  [[-30, -40, -40, -50, -50, -40, -40, -30],
   [-30, -40, -40, -50, -50, -40, -40, -30],
   [-30, -40, -40, -50, -50, -40, -40, -30],
   [-30, -40, -40, -50, -50, -40, -40, -30],
   [-20, -30, -30, -40, -40, -30, -30, -20],
   [-10, -20, -20, -20, -20, -20, -20, -10],
   [20, 20, 0, 0, 0, 0, 20, 20],
   [20, 30, 10, 0, 0, 10, 30, 20]]

def KING_LATE_GAME : List (List Int) :=
  [[-50, -40, -30, -20, -20, -30, -40, -50],
   [-30, -20, -10, 0, 0, -10, -20, -30],
   [-30, -10, 20, 30, 30, 20, -10, -30],
   [-30, -10, 30, 40, 40, 30, -10, -30],
   [-30, -10, 30, 40, 40, 30, -10, -30],
   [-30, -10, 20, 30, 30, 20, -10, -30],
   [-30, -30, 0, 0, 0, 0, -30, -30],
   [-50, -30, -30, -30, -30, -30, -30, -50]]

/-- Indexing an 8×8 weight table (Rust `TABLE[row][col]`; indices produced
by the engine are always in range). -/
def tableAt (t : List (List Int)) (row col : Nat) : Int :=
  (t.getD row []).getD col 0

/-- Row index translated into the forward-facing orientation of the
piece's owner: White reads the tables as given (`row - BOARD_START`),
Black reads them mirrored vertically (`9 - row`). -/
def orientRow (color : PieceColor) (row : Nat) : Nat :=
  match color with
  | PieceColor.White => row - BOARD_START
  | _ => 9 - row

/-- The body of `get_pos_evaluation` after the `Square::Full` match:
the table lookup for a piece of kind `kind`, with the row translated into
the orientation of `color` and the column shifted off the sentinel border. -/
def get_pos_eval_core (kind : PieceKind) (color : PieceColor) (row col : Nat)
    (full_move_clock : Nat) : Int :=
  let c := col - BOARD_START
  let r := orientRow color row
  match kind with
  | Pawn => tableAt PAWN_WEIGHTS r c
  | Rook => tableAt ROOK_WEIGHTS r c
  | Bishop => tableAt BISHOP_WEIGHTS r c
  | Knight => tableAt KNIGHT_WEIGHTS r c
  | King =>
      if 30 < full_move_clock then tableAt KING_LATE_GAME r c
      else tableAt KING_WEIGHTS r c
  | Queen => tableAt QUEEN_WEIGHTS r c

/-- `get_pos_evaluation` from `engine.rs`.  The Rust function panics when
the square does not hold a piece; the panic is modelled as `none`. -/
def get_pos_evaluation (row col : Nat) (board : BoardState) (color : PieceColor) :
    Option Int :=
  match board.board row col with
  | Square.Full piece =>
      some (get_pos_eval_core piece.kind color row col board.full_move_clock)
  | _ => none

/-- The playable row/column indices `BOARD_START..BOARD_END` iterated by
`get_evaluation`. -/
def boardRange : List Nat := List.range' BOARD_START (BOARD_END - BOARD_START)

/-- `get_evaluation` from `engine.rs`: material difference plus the
positional term of every occupied playable square (added for White,
subtracted for Black).  The `getD 0` mirrors extracting the value of
`get_pos_evaluation`, which is always `some` here because the square was
just matched as `Full`. -/
def get_evaluation (board : BoardState) : Int :=
  boardRange.foldl (fun acc row =>
    boardRange.foldl (fun acc col =>
      match board.board row col with
      | Square.Full piece =>
          let square_eval := (get_pos_evaluation row col board piece.color).getD 0
          if piece.color = White then acc + square_eval else acc - square_eval
      | _ => acc) acc)
    (board.white_total_piece_value - board.black_total_piece_value)

/-- `piece_value_differential` from `engine.rs`. -/
def piece_value_differential (board : BoardState) : Int :=
  board.white_total_piece_value - board.black_total_piece_value

def i32_MIN : Int := -2147483648
def i32_MAX : Int := 2147483647

/-- One maximizing-player loop of `alpha_beta_search`: iterate the sorted
successor list, recursing via `f` (which receives the current `alpha`),
raising `bestVal`/`bestMove` on strict improvement, raising `alpha`, and
breaking on `beta ≤ alpha`. -/
def searchMax (f : BoardState → Int → Option BoardState × Int) (beta : Int) :
    List BoardState → Int → Option BoardState → Int → Option BoardState × Int
  | [], _, bestMove, bestVal => (bestMove, bestVal)
  | b :: rest, alpha, bestMove, bestVal =>
      let ev := f b alpha
      let bestVal2 := if bestVal < ev.2 then ev.2 else bestVal
      let bestMove2 := if bestVal < ev.2 then some b else bestMove
      let alpha2 := max alpha ev.2
      if beta ≤ alpha2 then (bestMove2, bestVal2)
      else searchMax f beta rest alpha2 bestMove2 bestVal2

/-- One minimizing-player loop of `alpha_beta_search`, mirror of
`searchMax`: `f` receives the current `beta`. -/
def searchMin (f : BoardState → Int → Option BoardState × Int) (alpha : Int) :
    List BoardState → Int → Option BoardState → Int → Option BoardState × Int
  | [], _, bestMove, bestVal => (bestMove, bestVal)
  | b :: rest, beta, bestMove, bestVal =>
      let ev := f b beta
      let bestVal2 := if ev.2 < bestVal then ev.2 else bestVal
      let bestMove2 := if ev.2 < bestVal then some b else bestMove
      let beta2 := min beta ev.2
      if beta2 ≤ alpha then (bestMove2, bestVal2)
      else searchMin f alpha rest beta2 bestMove2 bestVal2

/-- Descending material-differential order used by the maximizing branch
(Rust `piece_value_differential(b).cmp(&piece_value_differential(a))`). -/
def sortMovesDesc (moves : List BoardState) : List BoardState :=
  moves.insertionSort (fun a b => piece_value_differential b ≤ piece_value_differential a)

/-- Ascending material-differential order used by the minimizing branch. -/
def sortMovesAsc (moves : List BoardState) : List BoardState :=
  moves.insertionSort (fun a b => piece_value_differential a ≤ piece_value_differential b)

/-- `alpha_beta_search` from `engine.rs`, parameterized by the external
move generator `gen` and check detector `check`.  Returns the chosen
successor (if any) and the score. -/
def alpha_beta_search (gen : BoardState → List BoardState)
    (check : BoardState → PieceColor → Bool) :
    Nat → BoardState → Int → Int → PieceColor → Option BoardState × Int
  | 0, board, _, _, _ => (none, get_evaluation board)
  | depth + 1, board, alpha, beta, maximizing_player =>
      let moves := gen board
      if moves.isEmpty then
        if maximizing_player = White then
          if check board White then (none, -99999999 - ((depth : Int) + 1))
          else (none, 0)
        else
          if check board Black then (none, 99999999 + ((depth : Int) + 1))
          else (none, 0)
      else
        if maximizing_player = White then
          searchMax (fun b a => alpha_beta_search gen check depth b a beta Black)
            beta (sortMovesDesc moves) alpha none i32_MIN
        else
          searchMin (fun b bt => alpha_beta_search gen check depth b alpha bt White)
            alpha (sortMovesAsc moves) beta none i32_MAX

/-- The boards on which the self-play loop `play_game_against_self`
invokes the search: starting from `b`, while `full_move_clock` is below
`max_moves`, search and adopt the returned successor; stop as soon as no
successor is returned.  `fuel` is a step index bounding the unrolling of
the source's `while` loop. -/
def play_game_trace (gen : BoardState → List BoardState)
    (check : BoardState → PieceColor → Bool) (depth : Nat) (max_moves : Nat) :
    Nat → BoardState → List BoardState
  | 0, _ => []
  | fuel + 1, board =>
      if board.full_move_clock < max_moves then
        board ::
          (match (alpha_beta_search gen check depth board i32_MIN i32_MAX board.to_move).1 with
            | some b2 => play_game_trace gen check depth max_moves fuel b2
            | none => [])
      else []

/-- Maximum of a list of scores with seed `a` (the running fold the
maximizing loop computes when no pruning interferes). -/
def listMaxFrom (a : Int) : List Int → Int
  | [] => a
  | x :: l => listMaxFrom (max a x) l

/-- Minimum of a list of scores with seed `a`. -/
def listMinFrom (a : Int) : List Int → Int
  | [] => a
  | x :: l => listMinFrom (min a x) l

/-- Spec-side reference search for the refinement claim: an unpruned full
minimax over the same tree (same move generator, same terminal scoring,
no alpha/beta window and no move ordering), following the spec's
description of the search value. -/
def minimax (gen : BoardState → List BoardState)
    (check : BoardState → PieceColor → Bool) :
    Nat → BoardState → PieceColor → Int
  | 0, board, _ => get_evaluation board
  | depth + 1, board, maximizing_player =>
      match gen board with
      | [] =>
          if maximizing_player = White then
            if check board White then -99999999 - ((depth : Int) + 1) else 0
          else
            if check board Black then 99999999 + ((depth : Int) + 1) else 0
      | c :: cs =>
          if maximizing_player = White then
            listMaxFrom (minimax gen check depth c Black)
              (cs.map (fun x => minimax gen check depth x Black))
          else
            listMinFrom (minimax gen check depth c White)
              (cs.map (fun x => minimax gen check depth x White))

/-- A score representable in `i32` (the leaf scores of the Rust search are
`i32` values by type). -/
def evalInRange (e : Int) : Bool := decide (i32_MIN ≤ e) && decide (e ≤ i32_MAX)

/-- A score strictly between the two `i32` sentinels. -/
def evalStrictInRange (e : Int) : Bool :=
  decide (i32_MIN < e) && decide (e < i32_MAX)

/-- Every leaf evaluation in the depth-`d` game tree below `b` is an `i32`
value (automatic in the Rust program, a hypothesis in the `Int` model). -/
def evalsBounded (gen : BoardState → List BoardState) :
    Nat → BoardState → Bool
  | 0, b => evalInRange (get_evaluation b)
  | d + 1, b => (gen b).all (fun c => evalsBounded gen d c)

/-- Every leaf evaluation in the depth-`d` game tree below `b` lies
strictly between the `i32` sentinels. -/
def evalsStrictBounded (gen : BoardState → List BoardState) :
    Nat → BoardState → Bool
  | 0, b => evalStrictInRange (get_evaluation b)
  | d + 1, b => (gen b).all (fun c => evalsStrictBounded gen d c)

/-- `get_evaluation` with the positional term inlined past the
`Square::Full` match (no fallible lookup): the panic-free evaluation. -/
def get_evaluation_safe (board : BoardState) : Int :=
  boardRange.foldl (fun acc row =>
    boardRange.foldl (fun acc col =>
      match board.board row col with
      | Square.Full piece =>
          let square_eval :=
            get_pos_eval_core piece.kind piece.color row col board.full_move_clock
          if piece.color = White then acc + square_eval else acc - square_eval
      | _ => acc) acc)
    (board.white_total_piece_value - board.black_total_piece_value)

/-- A completely empty board with zeroed counters, used as a concrete
test position. -/
def emptyBoard : BoardState :=
  { board := fun _ _ => Square.Empty, to_move := White,
    full_move_clock := 0, half_move_clock := 0,
    white_total_piece_value := 0, black_total_piece_value := 0 }

/-- An empty board carrying a given white material total, used to build
small distinguishable concrete positions. -/
def matBoard (v : Int) : BoardState :=
  { emptyBoard with white_total_piece_value := v }

/-- A board with a single white pawn on square (3,2) and white material
100, used as a concrete test position. -/
def pawnBoard : BoardState :=
  { emptyBoard with
    board := fun r c => if r = 3 ∧ c = 2 then Square.Full ⟨Pawn, White⟩ else Square.Empty,
    white_total_piece_value := 100 }

/-- A board with a single piece of the given kind on square (4,4) and the
given full-move clock, used as a concrete test position. -/
def centerBoard (k : PieceKind) (clock : Nat) : BoardState :=
  { emptyBoard with
    board := fun r c => if r = 4 ∧ c = 4 then Square.Full ⟨k, White⟩ else Square.Empty,
    full_move_clock := clock }

/-- Whether a square holds a piece. -/
def Square.isFull : Square → Bool
  | Square.Full _ => true
  | _ => false

/-- The per-piece-kind 8×8 weight table, with the king's table selected by
the game-phase proxy (`full_move_clock > 30` picks the endgame table). -/
def pieceTable (k : PieceKind) (clock : Nat) : List (List Int) :=
  match k with
  | Pawn => PAWN_WEIGHTS
  | Rook => ROOK_WEIGHTS
  | Bishop => BISHOP_WEIGHTS
  | Knight => KNIGHT_WEIGHTS
  | Queen => QUEEN_WEIGHTS
  | King => if 30 < clock then KING_LATE_GAME else KING_WEIGHTS

/-- Spec-side signed positional weight of one square: the table weight of
the occupying piece, looked up in the owner's orientation, counted
positively for White and negatively for Black; 0 on unoccupied squares. -/
def squareWeight (board : BoardState) (row col : Nat) : Int :=
  match board.board row col with
  | Square.Full p =>
      (if p.color = White then 1 else -1) *
        tableAt (pieceTable p.kind board.full_move_clock)
          (orientRow p.color row) (col - BOARD_START)
  | _ => 0

/-- Spec-side evaluation for the claim about `get_evaluation`: material
difference plus the sum of the signed positional weights of every square
of the 12×12 grid. -/
def spec_evaluation (board : BoardState) : Int :=
  board.white_total_piece_value - board.black_total_piece_value +
    ((List.range 12).map (fun row =>
      ((List.range 12).map (fun col => squareWeight board row col)).sum)).sum

/-- A position is well-formed when no piece sits on the sentinel border:
every occupied square of the grid lies in the playable area
`BOARD_START..BOARD_END`. -/
def wellFormedBoard (board : BoardState) : Bool :=
  (List.range 12).all (fun r => (List.range 12).all (fun c =>
    if r < BOARD_START ∨ BOARD_END ≤ r ∨ c < BOARD_START ∨ BOARD_END ≤ c
    then !(board.board r c).isFull else true))

/-- Fuel-threaded maximizing loop: identical to `searchMax` except that
the recursion on a child may run out of fuel, in which case the whole
loop reports `none`. -/
def searchMaxO (f : BoardState → Int → Option (Option BoardState × Int)) (beta : Int) :
    List BoardState → Int → Option BoardState → Int →
      Option (Option BoardState × Int)
  | [], _, bestMove, bestVal => some (bestMove, bestVal)
  | b :: rest, alpha, bestMove, bestVal =>
      match f b alpha with
      | none => none
      | some ev =>
          let bestVal2 := if bestVal < ev.2 then ev.2 else bestVal
          let bestMove2 := if bestVal < ev.2 then some b else bestMove
          let alpha2 := max alpha ev.2
          if beta ≤ alpha2 then some (bestMove2, bestVal2)
          else searchMaxO f beta rest alpha2 bestMove2 bestVal2

/-- Fuel-threaded minimizing loop, mirror of `searchMaxO`. -/
def searchMinO (f : BoardState → Int → Option (Option BoardState × Int)) (alpha : Int) :
    List BoardState → Int → Option BoardState → Int →
      Option (Option BoardState × Int)
  | [], _, bestMove, bestVal => some (bestMove, bestVal)
  | b :: rest, beta, bestMove, bestVal =>
      match f b beta with
      | none => none
      | some ev =>
          let bestVal2 := if ev.2 < bestVal then ev.2 else bestVal
          let bestMove2 := if ev.2 < bestVal then some b else bestMove
          let beta2 := min beta ev.2
          if beta2 ≤ alpha then some (bestMove2, bestVal2)
          else searchMinO f alpha rest beta2 bestMove2 bestVal2

/-- `alpha_beta_search` instrumented with a fuel counter charged once per
recursion level: `none` means the fuel ran out before the search finished.
Used to state that the search always terminates with fuel `depth + 1`. -/
def alpha_beta_search_fuel (gen : BoardState → List BoardState)
    (check : BoardState → PieceColor → Bool) :
    Nat → Nat → BoardState → Int → Int → PieceColor →
      Option (Option BoardState × Int)
  | 0, _, _, _, _, _ => none
  | _ + 1, 0, board, _, _, _ => some (none, get_evaluation board)
  | fuel + 1, depth + 1, board, alpha, beta, maximizing_player =>
      let moves := gen board
      if moves.isEmpty then
        if maximizing_player = White then
          if check board White then some (none, -99999999 - ((depth : Int) + 1))
          else some (none, 0)
        else
          if check board Black then some (none, 99999999 + ((depth : Int) + 1))
          else some (none, 0)
      else
        if maximizing_player = White then
          searchMaxO (fun b a => alpha_beta_search_fuel gen check fuel depth b a beta Black)
            beta (sortMovesDesc moves) alpha none i32_MIN
        else
          searchMinO (fun b bt => alpha_beta_search_fuel gen check fuel depth b alpha bt White)
            alpha (sortMovesAsc moves) beta none i32_MAX

/-- Concrete move generator for witnesses: the material-10 position has
two successors (material 1 and 2), every other position is terminal. -/
def sampleGen : BoardState → List BoardState := fun b =>
  if b.white_total_piece_value = 10 then [matBoard 1, matBoard 2] else []

/-- Concrete check detector for witnesses: exactly the material-1 position
is in check. -/
def sampleCheck : BoardState → PieceColor → Bool := fun b _ =>
  b.white_total_piece_value = 1

/-- Concrete move generator for the faster-mate witness.  From the
material-10 root (White to move) the material-4 successor starts a forced
three-plies-deep mate line 4 → 5 → 6 (position 6 is Black with no moves),
while the material-2 successor leads to the stalemate position 3.  From
the material-20 root (Black to move) the material-21 successor is an
immediate mate of White, the material-22 successor a stalemate. -/
def mateGen2 : BoardState → List BoardState := fun b =>
  if b.white_total_piece_value = 10 then [matBoard 4, matBoard 2]
  else if b.white_total_piece_value = 4 then [matBoard 5]
  else if b.white_total_piece_value = 5 then [matBoard 6]
  else if b.white_total_piece_value = 2 then [matBoard 3]
  else if b.white_total_piece_value = 20 then [matBoard 21, matBoard 22]
  else []

/-- Concrete check detector for the faster-mate witness: the material-6
and material-21 positions are in check. -/
def mateCheck2 : BoardState → PieceColor → Bool := fun b _ =>
  decide (b.white_total_piece_value = 6) || decide (b.white_total_piece_value = 21)

/-- Claim C3: at depth 0 the search returns exactly
`(none, get_evaluation position)`, independently of the move generator and
of whether the position is a terminal game state. -/
theorem alpha_beta_search_depth_zero (gen : BoardState → List BoardState)
    (check : BoardState → PieceColor → Bool) (board : BoardState)
    (alpha beta : Int) (mx : PieceColor) :
    alpha_beta_search gen check 0 board alpha beta mx =
      (none, get_evaluation board) := rfl

/-- Claim C2: at depth ≥ 1 on a position with no legal successors, the
search returns `(none, -99999999 - depth)` when the maximizing side is
White and White is in check, `(none, 99999999 + depth)` when the
maximizing side is Black and Black is in check, and `(none, 0)`
(stalemate) when the maximizing side is not in check. -/
theorem alpha_beta_search_terminal_scores (gen : BoardState → List BoardState)
    (check : BoardState → PieceColor → Bool) (board : BoardState)
    (depth : Nat) (alpha beta : Int) (mx : PieceColor)
    (hmoves : gen board = []) (hdepth : 1 ≤ depth) :
    (mx = White → check board White = true →
      alpha_beta_search gen check depth board alpha beta mx =
        (none, -99999999 - (depth : Int))) ∧
    (mx = Black → check board Black = true →
      alpha_beta_search gen check depth board alpha beta mx =
        (none, 99999999 + (depth : Int))) ∧
    (check board mx = false →
      alpha_beta_search gen check depth board alpha beta mx = (none, 0)) := by
  obtain ⟨d, rfl⟩ : ∃ d, depth = d + 1 := ⟨depth - 1, by omega⟩
  refine ⟨?_, ?_, ?_⟩
  · rintro rfl hchk
    simp [alpha_beta_search, hmoves, hchk]
  · rintro rfl hchk
    simp [alpha_beta_search, hmoves, hchk]
  · intro hchk
    cases mx <;> simp [alpha_beta_search, hmoves, hchk]

/-- Claim C2 witness: concrete terminal positions exercising the three
branches of `alpha_beta_search_terminal_scores`. -/
theorem alpha_beta_search_terminal_scores_witness :
    (alpha_beta_search (fun _ => []) (fun _ _ => true) 3 emptyBoard
      i32_MIN i32_MAX White = (none, -100000002)) ∧
    (alpha_beta_search (fun _ => []) (fun _ _ => true) 3 emptyBoard
      i32_MIN i32_MAX Black = (none, 100000002)) ∧
    (alpha_beta_search (fun _ => []) (fun _ _ => false) 3 emptyBoard
      i32_MIN i32_MAX White = (none, 0)) := by
  refine ⟨?_, ?_, ?_⟩
  · exact ((alpha_beta_search_terminal_scores _ _ _ 3 _ _ White rfl (by omega)).1
      rfl rfl).trans (by norm_num)
  · exact ((alpha_beta_search_terminal_scores _ _ _ 3 _ _ Black rfl (by omega)).2.1
      rfl rfl).trans (by norm_num)
  · exact (alpha_beta_search_terminal_scores _ _ _ 3 _ _ White rfl (by omega)).2.2 rfl

/-- Claim C5: for an occupied square the king's positional term uses the
endgame table exactly when `full_move_clock` strictly exceeds 30 and the
middlegame table otherwise, and the positional term of every non-king
piece kind is unchanged by an arbitrary change of `full_move_clock`. -/
theorem king_table_phase_switch (board : BoardState) (row col : Nat)
    (p : Piece) (clock2 : Nat)
    (hocc : board.board row col = Square.Full p) :
    (p.kind = King →
      get_pos_evaluation row col board p.color =
        some (if 30 < board.full_move_clock
          then tableAt KING_LATE_GAME (orientRow p.color row) (col - BOARD_START)
          else tableAt KING_WEIGHTS (orientRow p.color row) (col - BOARD_START))) ∧
    (p.kind ≠ King →
      get_pos_evaluation row col { board with full_move_clock := clock2 } p.color =
        get_pos_evaluation row col board p.color) := by
  obtain ⟨k, c0⟩ := p
  simp only at hocc ⊢
  constructor
  · intro hking
    subst hking
    unfold get_pos_evaluation
    rw [hocc]
    by_cases h : 30 < board.full_move_clock <;>
      simp [get_pos_eval_core, h]
  · intro hnk
    unfold get_pos_evaluation
    rw [show ({ board with full_move_clock := clock2 } : BoardState).board = board.board
      from rfl, hocc]
    cases k <;> simp_all [get_pos_eval_core]

/-- Claim C5 witness: a white king on square (4,4) with clock 31 scores
with the endgame table, and a knight's positional term is unchanged when
the clock moves from 7 to 99. -/
theorem king_table_phase_switch_witness :
    (get_pos_evaluation 4 4 (centerBoard King 31) White =
      some (tableAt KING_LATE_GAME 2 2)) ∧
    (get_pos_evaluation 4 4 { centerBoard Knight 7 with full_move_clock := 99 } White =
      get_pos_evaluation 4 4 (centerBoard Knight 7) White) := by
  constructor
  · exact ((king_table_phase_switch (centerBoard King 31) 4 4 ⟨King, White⟩ 0
      (by simp [centerBoard, emptyBoard])).1 rfl).trans (by rfl)
  · exact (king_table_phase_switch (centerBoard Knight 7) 4 4 ⟨Knight, White⟩ 99
      (by simp [centerBoard, emptyBoard])).2 (by simp)

/-- Claim C9: `get_pos_evaluation` fails (returns `none`, the model of the
Rust panic) exactly on squares that do not hold a piece; on a square
matched as occupied it always succeeds, and consequently `get_evaluation`
— which consults it only on squares it has just matched as occupied —
computes the same value as the panic-free evaluation for every position. -/
theorem get_pos_evaluation_panic_model :
    (∀ (row col : Nat) (board : BoardState) (color : PieceColor),
      (∀ p, board.board row col ≠ Square.Full p) →
      get_pos_evaluation row col board color = none) ∧
    (∀ (row col : Nat) (board : BoardState) (color : PieceColor) (p : Piece),
      board.board row col = Square.Full p →
      get_pos_evaluation row col board color =
        some (get_pos_eval_core p.kind color row col board.full_move_clock)) ∧
    (∀ board : BoardState, get_evaluation board = get_evaluation_safe board) := by
  refine ⟨?_, ?_, ?_⟩
  · intro row col board color hno
    unfold get_pos_evaluation
    cases h : board.board row col with
    | Empty => rfl
    | Full p => exact absurd h (hno p)
    | Boundary => rfl
  · intro row col board color p hocc
    unfold get_pos_evaluation
    rw [hocc]
  · intro board
    unfold get_evaluation get_evaluation_safe
    refine List.foldl_ext _ _ _ ?_
    intro acc row _
    refine List.foldl_ext _ _ _ ?_
    intro acc2 col _
    cases h : board.board row col with
    | Empty => rfl
    | Full p => simp [h, get_pos_evaluation]
    | Boundary => rfl

/-- Claim C9 witness: an empty square fails, an occupied square succeeds,
and the evaluations agree, on a concrete one-pawn board. -/
theorem get_pos_evaluation_panic_model_witness :
    (get_pos_evaluation 2 2 pawnBoard White = none) ∧
    (get_pos_evaluation 3 2 pawnBoard White =
      some (get_pos_eval_core Pawn White 3 2 0)) ∧
    (get_evaluation pawnBoard = get_evaluation_safe pawnBoard) := by
  refine ⟨?_, ?_, get_pos_evaluation_panic_model.2.2 _⟩
  · exact get_pos_evaluation_panic_model.1 2 2 _ White
      (by intro p; simp [pawnBoard, emptyBoard])
  · exact get_pos_evaluation_panic_model.2.1 3 2 _ White ⟨Pawn, White⟩
      (by simp [pawnBoard, emptyBoard])

/-- Claim C7: the self-play loop invokes the search only on positions
whose `full_move_clock` is strictly below the configured cap (so the loop
never runs past the cap), and as soon as a search returns no successor
the loop stops: the current position is the last one visited. -/
theorem play_game_driver_guard (gen : BoardState → List BoardState)
    (check : BoardState → PieceColor → Bool) (depth max_moves : Nat) :
    (∀ (fuel : Nat) (b0 x : BoardState),
      x ∈ play_game_trace gen check depth max_moves fuel b0 →
      x.full_move_clock < max_moves) ∧
    (∀ (fuel : Nat) (b : BoardState),
      b.full_move_clock < max_moves →
      (alpha_beta_search gen check depth b i32_MIN i32_MAX b.to_move).1 = none →
      play_game_trace gen check depth max_moves (fuel + 1) b = [b]) := by
  constructor
  · intro fuel
    induction fuel with
    | zero => intro b0 x hx; simp [play_game_trace] at hx
    | succ n ih =>
      intro b0 x hx
      unfold play_game_trace at hx
      by_cases hg : b0.full_move_clock < max_moves
      · rw [if_pos hg] at hx
        rcases List.mem_cons.mp hx with h | h
        · exact h ▸ hg
        · rcases hs : (alpha_beta_search gen check depth b0 i32_MIN i32_MAX b0.to_move).1 with
            _ | b2
          · rw [hs] at h; simp at h
          · rw [hs] at h; exact ih b2 x h
      · rw [if_neg hg] at hx; simp at hx
  · intro fuel b hg hnone
    unfold play_game_trace
    rw [if_pos hg, hnone]

/-- Claim C7 witness: with a generator that never returns a successor the
trace from a clock-0 position with cap 5 is exactly that position, and it
satisfies the guard. -/
theorem play_game_driver_guard_witness :
    emptyBoard.full_move_clock < 5 ∧
    play_game_trace (fun _ => []) (fun _ _ => false) 2 5 3 emptyBoard =
      [emptyBoard] := by
  constructor
  · exact (play_game_driver_guard (fun _ => []) (fun _ _ => false) 2 5).1 3
      emptyBoard emptyBoard
      (by rw [(play_game_driver_guard (fun _ => []) (fun _ _ => false) 2 5).2 2 emptyBoard
        (by norm_num [emptyBoard]) rfl]; exact List.mem_singleton.mpr rfl)
  · exact (play_game_driver_guard (fun _ => []) (fun _ _ => false) 2 5).2 2 emptyBoard
      (by norm_num [emptyBoard]) rfl

theorem listMaxFrom_max (a b : Int) (l : List Int) :
    listMaxFrom (max a b) l = max (listMaxFrom a l) b := by
  induction l generalizing a with
  | nil => rfl
  | cons x l ih =>
      simp only [listMaxFrom]
      rw [sup_right_comm a b x]
      exact ih (max a x)

theorem le_listMaxFrom (a : Int) (l : List Int) : a ≤ listMaxFrom a l := by
  have h := listMaxFrom_max a a l
  rw [max_self] at h
  rw [h]
  exact le_max_right _ _

theorem listMaxFrom_seed_eq {a b : Int} (hab : a ≤ b) (l : List Int) :
    listMaxFrom b l = max (listMaxFrom a l) b := by
  have h := listMaxFrom_max a b l
  rwa [max_eq_right hab] at h

theorem listMaxFrom_mono {a b : Int} (hab : a ≤ b) (l : List Int) :
    listMaxFrom a l ≤ listMaxFrom b l := by
  rw [listMaxFrom_seed_eq hab]
  exact le_max_left _ _

theorem listMaxFrom_le {a c : Int} {l : List Int} (ha : a ≤ c)
    (hl : ∀ x ∈ l, x ≤ c) : listMaxFrom a l ≤ c := by
  induction l generalizing a with
  | nil => exact ha
  | cons x l ih =>
      exact ih (max_le ha (hl x (List.mem_cons_self x l)))
        (fun y hy => hl y (List.mem_cons_of_mem x hy))

theorem mem_le_listMaxFrom {x : Int} {l : List Int} (a : Int) (hx : x ∈ l) :
    x ≤ listMaxFrom a l := by
  induction l generalizing a with
  | nil => cases hx
  | cons y l ih =>
      rcases List.mem_cons.mp hx with rfl | h
      · exact le_trans (le_max_right a x) (le_listMaxFrom _ l)
      · exact ih _ h

theorem listMaxFrom_perm {l1 l2 : List Int} (h : l1.Perm l2) (a : Int) :
    listMaxFrom a l1 = listMaxFrom a l2 := by
  induction h generalizing a with
  | nil => rfl
  | cons x _ ih => exact ih _
  | swap x y l => simp only [listMaxFrom]; rw [sup_right_comm]
  | trans _ _ ih1 ih2 => exact (ih1 a).trans (ih2 a)

theorem listMinFrom_min (a b : Int) (l : List Int) :
    listMinFrom (min a b) l = min (listMinFrom a l) b := by
  induction l generalizing a with
  | nil => rfl
  | cons x l ih =>
      simp only [listMinFrom]
      rw [min_right_comm a b x]
      exact ih (min a x)

theorem listMinFrom_le_seed (a : Int) (l : List Int) : listMinFrom a l ≤ a := by
  have h := listMinFrom_min a a l
  rw [min_self] at h
  rw [h]
  exact min_le_right _ _

theorem listMinFrom_seed_eq {a b : Int} (hab : b ≤ a) (l : List Int) :
    listMinFrom b l = min (listMinFrom a l) b := by
  have h := listMinFrom_min a b l
  rwa [min_eq_right hab] at h

theorem listMinFrom_mono {a b : Int} (hab : a ≤ b) (l : List Int) :
    listMinFrom a l ≤ listMinFrom b l := by
  rw [listMinFrom_seed_eq hab]
  exact min_le_left _ _

theorem le_listMinFrom {a c : Int} {l : List Int} (ha : c ≤ a)
    (hl : ∀ x ∈ l, c ≤ x) : c ≤ listMinFrom a l := by
  induction l generalizing a with
  | nil => exact ha
  | cons x l ih =>
      exact ih (le_min ha (hl x (List.mem_cons_self x l)))
        (fun y hy => hl y (List.mem_cons_of_mem x hy))

theorem listMinFrom_le_mem {x : Int} {l : List Int} (a : Int) (hx : x ∈ l) :
    listMinFrom a l ≤ x := by
  induction l generalizing a with
  | nil => cases hx
  | cons y l ih =>
      rcases List.mem_cons.mp hx with rfl | h
      · exact le_trans (listMinFrom_le_seed _ l) (min_le_right a x)
      · exact ih _ h

theorem listMinFrom_perm {l1 l2 : List Int} (h : l1.Perm l2) (a : Int) :
    listMinFrom a l1 = listMinFrom a l2 := by
  induction h generalizing a with
  | nil => rfl
  | cons x _ ih => exact ih _
  | swap x y l => simp only [listMinFrom]; rw [min_right_comm]
  | trans _ _ ih1 ih2 => exact (ih1 a).trans (ih2 a)

theorem evalInRange_iff {e : Int} :
    evalInRange e = true ↔ i32_MIN ≤ e ∧ e ≤ i32_MAX := by
  simp [evalInRange]

theorem minimax_bounds (gen : BoardState → List BoardState)
    (check : BoardState → PieceColor → Bool) :
    ∀ (d : Nat) (b : BoardState) (mx : PieceColor), d ≤ 255 →
      evalsBounded gen d b = true →
      i32_MIN ≤ minimax gen check d b mx ∧ minimax gen check d b mx ≤ i32_MAX := by
  intro d
  induction d with
  | zero =>
      intro b mx _ hb
      exact evalInRange_iff.mp hb
  | succ d ih =>
      intro b mx hd hb
      simp only [evalsBounded, List.all_eq_true] at hb
      have hd' : d ≤ 255 := Nat.le_of_succ_le hd
      have hdI : (d : Int) ≤ 255 := by exact_mod_cast hd'
      unfold minimax
      cases hg : gen b with
      | nil =>
          have hmin : (i32_MIN : Int) = -2147483648 := rfl
          have hmax : (i32_MAX : Int) = 2147483647 := rfl
          cases mx <;> simp only [reduceCtorEq, if_true, if_false, eq_self_iff_true] <;>
            split <;> constructor <;> simp [i32_MIN, i32_MAX] <;> omega
      | cons c cs =>
          have hc : evalsBounded gen d c = true := hb c (hg ▸ List.mem_cons_self c cs)
          have hcs : ∀ x ∈ cs, evalsBounded gen d x = true :=
            fun x hx => hb x (hg ▸ List.mem_cons_of_mem c hx)
          cases mx with
          | White =>
              simp only [reduceCtorEq, if_true, eq_self_iff_true]
              constructor
              · exact le_trans (ih c Black hd' hc).1 (le_listMaxFrom _ _)
              · refine listMaxFrom_le (ih c Black hd' hc).2 ?_
                intro x hx
                rcases List.mem_map.mp hx with ⟨y, hy, rfl⟩
                exact (ih y Black hd' (hcs y hy)).2
          | Black =>
              simp only [reduceCtorEq, if_false, eq_self_iff_true]
              constructor
              · refine le_listMinFrom (ih c White hd' hc).1 ?_
                intro x hx
                rcases List.mem_map.mp hx with ⟨y, hy, rfl⟩
                exact (ih y White hd' (hcs y hy)).1
              · exact le_trans (listMinFrom_le_seed _ _) (ih c White hd' hc).2

theorem if_lt_eq_max (a b : Int) : (if a < b then b else a) = max a b := by
  rcases le_or_lt b a with h | h
  · rw [if_neg (not_lt.mpr h), max_eq_left h]
  · rw [if_pos h, max_eq_right h.le]

theorem if_lt_eq_min (a b : Int) : (if b < a then b else a) = min a b := by
  rcases le_or_lt a b with h | h
  · rw [if_neg (not_lt.mpr h), min_eq_left h]
  · rw [if_pos h, min_eq_right h.le]

theorem searchMax_cons (F : BoardState → Int → Option BoardState × Int)
    (beta : Int) (b : BoardState) (rest : List BoardState)
    (alpha : Int) (bm : Option BoardState) (bv : Int) :
    searchMax F beta (b :: rest) alpha bm bv =
      if beta ≤ max alpha (F b alpha).2 then
        (if bv < (F b alpha).2 then some b else bm,
         if bv < (F b alpha).2 then (F b alpha).2 else bv)
      else
        searchMax F beta rest (max alpha (F b alpha).2)
          (if bv < (F b alpha).2 then some b else bm)
          (if bv < (F b alpha).2 then (F b alpha).2 else bv) := rfl

theorem searchMin_cons (F : BoardState → Int → Option BoardState × Int)
    (alpha : Int) (b : BoardState) (rest : List BoardState)
    (beta : Int) (bm : Option BoardState) (bv : Int) :
    searchMin F alpha (b :: rest) beta bm bv =
      if min beta (F b beta).2 ≤ alpha then
        (if (F b beta).2 < bv then some b else bm,
         if (F b beta).2 < bv then (F b beta).2 else bv)
      else
        searchMin F alpha rest (min beta (F b beta).2)
          (if (F b beta).2 < bv then some b else bm)
          (if (F b beta).2 < bv then (F b beta).2 else bv) := rfl

/-- Correctness of the maximizing loop of the search.  `F` runs the
search on a child with the current `alpha`, `Mch` is the child's true
(minimax) value, and each child call is assumed to satisfy the fail-soft
window specification.  Relative to the running maximum `listMaxFrom bv`
of the children's true values, the loop fails low within `[M, alpha]`,
fails high within `[beta, M]`, and is exact (also returning a child that
attains the maximum) when `M` lies strictly inside the window. -/
theorem searchMax_spec (F : BoardState → Int → Option BoardState × Int)
    (Mch : BoardState → Int) (beta : Int) :
    ∀ (l : List BoardState) (alpha : Int) (bm : Option BoardState) (bv : Int),
      (∀ b ∈ l, ∀ a : Int, i32_MIN ≤ a → a < beta →
        (Mch b ≤ a → Mch b ≤ (F b a).2 ∧ (F b a).2 ≤ a) ∧
        (beta ≤ Mch b → beta ≤ (F b a).2 ∧ (F b a).2 ≤ Mch b) ∧
        (a < Mch b → Mch b < beta → (F b a).2 = Mch b)) →
      i32_MIN ≤ alpha → alpha < beta → bv ≤ alpha →
      (listMaxFrom bv (l.map Mch) ≤ alpha →
        listMaxFrom bv (l.map Mch) ≤ (searchMax F beta l alpha bm bv).2 ∧
        (searchMax F beta l alpha bm bv).2 ≤ alpha ∧
        (alpha ≤ bv → searchMax F beta l alpha bm bv = (bm, bv))) ∧
      (beta ≤ listMaxFrom bv (l.map Mch) →
        beta ≤ (searchMax F beta l alpha bm bv).2 ∧
        (searchMax F beta l alpha bm bv).2 ≤ listMaxFrom bv (l.map Mch)) ∧
      (alpha < listMaxFrom bv (l.map Mch) → listMaxFrom bv (l.map Mch) < beta →
        (searchMax F beta l alpha bm bv).2 = listMaxFrom bv (l.map Mch) ∧
        ∃ c ∈ l, (searchMax F beta l alpha bm bv).1 = some c ∧
          Mch c = listMaxFrom bv (l.map Mch)) := by
  intro l
  induction l with
  | nil =>
      intro alpha bm bv _ hmin hab hbv
      simp only [List.map_nil, listMaxFrom, searchMax]
      refine ⟨fun hM => ⟨le_refl _, hM, fun _ => trivial⟩, ?_, ?_⟩
      · intro hM
        exact absurd (lt_of_le_of_lt hbv hab) (not_lt.mpr hM)
      · intro h1 _
        exact absurd h1 (not_lt.mpr hbv)
  | cons b rest ih =>
      intro alpha bm bv hcs hmin hab hbv
      have hb := hcs b (List.mem_cons_self b rest) alpha hmin hab
      have hrest : ∀ x ∈ rest, ∀ a : Int, i32_MIN ≤ a → a < beta →
          (Mch x ≤ a → Mch x ≤ (F x a).2 ∧ (F x a).2 ≤ a) ∧
          (beta ≤ Mch x → beta ≤ (F x a).2 ∧ (F x a).2 ≤ Mch x) ∧
          (a < Mch x → Mch x < beta → (F x a).2 = Mch x) :=
        fun x hx => hcs x (List.mem_cons_of_mem b hx)
      simp only [List.map_cons, listMaxFrom, searchMax_cons, if_lt_eq_max]
      rcases le_or_lt (Mch b) alpha with hA | hA'
      · -- child fails low: its window value stays within [Mch b, alpha]
        have hvA := hb.1 hA
        have halpha2 : max alpha (F b alpha).2 = alpha := max_eq_left hvA.2
        have hnocut : ¬ beta ≤ max alpha (F b alpha).2 := by
          rw [halpha2]; exact not_le.mpr hab
        rw [if_neg hnocut, halpha2]
        have hbv2le : max bv (F b alpha).2 ≤ alpha := max_le hbv hvA.2
        have hseed : max bv (Mch b) ≤ max bv (F b alpha).2 :=
          max_le (le_max_left _ _) (le_trans hvA.1 (le_max_right _ _))
        have hM' : listMaxFrom (max bv (F b alpha).2) (rest.map Mch) =
            max (listMaxFrom (max bv (Mch b)) (rest.map Mch)) (max bv (F b alpha).2) :=
          listMaxFrom_seed_eq hseed _
        have hIH := ih alpha (if bv < (F b alpha).2 then some b else bm)
          (max bv (F b alpha).2) hrest hmin hab hbv2le
        refine ⟨?_, ?_, ?_⟩
        · intro hMa
          have hM'le : listMaxFrom (max bv (F b alpha).2) (rest.map Mch) ≤ alpha := by
            rw [hM']; exact max_le hMa hbv2le
          obtain ⟨g1, g2, g3⟩ := hIH.1 hM'le
          refine ⟨le_trans (listMaxFrom_mono hseed _) g1, g2, ?_⟩
          · intro halb
            have hnlt : ¬ bv < (F b alpha).2 := not_lt.mpr (le_trans hvA.2 halb)
            have h4 := g3 (le_trans halb (le_max_left _ _))
            rw [h4, if_neg hnlt, max_eq_left (le_trans hvA.2 halb)]
        · intro hMb
          have hM'eq : listMaxFrom (max bv (F b alpha).2) (rest.map Mch) =
              listMaxFrom (max bv (Mch b)) (rest.map Mch) := by
            rw [hM']
            exact max_eq_left (le_trans hbv2le (le_of_lt (lt_of_lt_of_le hab hMb)))
          obtain ⟨g1, g2⟩ := hIH.2.1 (hM'eq.symm ▸ hMb)
          exact ⟨g1, hM'eq ▸ g2⟩
        · intro h1 h2
          have hM'eq : listMaxFrom (max bv (F b alpha).2) (rest.map Mch) =
              listMaxFrom (max bv (Mch b)) (rest.map Mch) := by
            rw [hM']
            exact max_eq_left (le_trans hbv2le (le_of_lt h1))
          obtain ⟨g1, c, hc, hcsome, hcM⟩ := hIH.2.2 (hM'eq.symm ▸ h1) (hM'eq.symm ▸ h2)
          exact ⟨hM'eq ▸ g1, c, List.mem_cons_of_mem b hc, hcsome, hM'eq ▸ hcM⟩
      · rcases lt_or_le (Mch b) beta with hC | hB
        · -- child value strictly inside the window: exact value
          have hvC := hb.2.2 hA' hC
          have hblt : bv < (F b alpha).2 := by rw [hvC]; exact lt_of_le_of_lt hbv hA'
          have halpha2 : max alpha (F b alpha).2 = (F b alpha).2 := by
            rw [hvC]; exact max_eq_right hA'.le
          have hnocut : ¬ beta ≤ max alpha (F b alpha).2 := by
            rw [halpha2, hvC]; exact not_le.mpr hC
          rw [if_neg hnocut, halpha2, if_pos hblt]
          have hseedeq : max bv (Mch b) = (F b alpha).2 := by
            rw [hvC]; exact max_eq_right (le_trans hbv hA'.le)
          rw [show max bv (F b alpha).2 = (F b alpha).2 from
            max_eq_right (le_of_lt hblt), hseedeq]
          have hIH := ih (F b alpha).2 (some b) (F b alpha).2 hrest
            (le_trans hmin (le_of_lt (by rw [hvC]; exact hA'))) (by rw [hvC]; exact hC)
            (le_refl _)
          refine ⟨?_, hIH.2.1, ?_⟩
          · intro hMa
            have hle : (F b alpha).2 ≤ alpha := le_trans (le_listMaxFrom _ _) hMa
            rw [hvC] at hle
            exact absurd (lt_of_lt_of_le hA' hle) (lt_irrefl alpha)
          · intro h1 h2
            rcases le_or_lt (listMaxFrom (F b alpha).2 (rest.map Mch)) (F b alpha).2 with
              hMv | hMv
            · have hMeq : listMaxFrom (F b alpha).2 (rest.map Mch) = (F b alpha).2 :=
                le_antisymm hMv (le_listMaxFrom _ _)
              obtain ⟨g1, g2, g3⟩ := hIH.1 hMv
              refine ⟨le_antisymm (le_trans g2 hMeq.ge) g1, b, List.mem_cons_self b rest, ?_, ?_⟩
              · rw [g3 (le_refl _)]
              · rw [hMeq, hvC]
            · obtain ⟨g1, c, hc, hcsome, hcM⟩ := hIH.2.2 hMv h2
              exact ⟨g1, c, List.mem_cons_of_mem b hc, hcsome, hcM⟩
        · -- child fails high: immediate beta cutoff
          have hvB := hb.2.1 hB
          have hblt : bv < (F b alpha).2 :=
            lt_of_le_of_lt hbv (lt_of_lt_of_le hab hvB.1)
          have hcut : beta ≤ max alpha (F b alpha).2 :=
            le_trans hvB.1 (le_max_right _ _)
          rw [if_pos hcut, if_pos hblt, max_eq_right (le_of_lt hblt)]
          have hMgb : beta ≤ listMaxFrom (max bv (Mch b)) (rest.map Mch) :=
            le_trans hB (le_trans (le_max_right _ _) (le_listMaxFrom _ _))
          refine ⟨?_, ?_, ?_⟩
          · intro hMa
            exact absurd (lt_of_lt_of_le hab (le_trans hMgb hMa)) (lt_irrefl alpha)
          · intro _
            exact ⟨hvB.1, le_trans hvB.2
              (le_trans (le_max_right bv (Mch b)) (le_listMaxFrom _ _))⟩
          · intro _ h2
            exact absurd (lt_of_le_of_lt hMgb h2) (lt_irrefl beta)

/-- Correctness of the minimizing loop of the search, mirror of
`searchMax_spec`: relative to the running minimum `listMinFrom bv` of the
children's true values, the loop fails high within `[beta, M]`, fails low
within `[M, alpha]`, and is exact when `M` lies strictly inside the
window. -/
theorem searchMin_spec (F : BoardState → Int → Option BoardState × Int)
    (Mch : BoardState → Int) (alpha : Int) :
    ∀ (l : List BoardState) (beta : Int) (bm : Option BoardState) (bv : Int),
      (∀ b ∈ l, ∀ t : Int, t ≤ i32_MAX → alpha < t →
        (Mch b ≤ alpha → Mch b ≤ (F b t).2 ∧ (F b t).2 ≤ alpha) ∧
        (t ≤ Mch b → t ≤ (F b t).2 ∧ (F b t).2 ≤ Mch b) ∧
        (alpha < Mch b → Mch b < t → (F b t).2 = Mch b)) →
      beta ≤ i32_MAX → alpha < beta → beta ≤ bv →
      (beta ≤ listMinFrom bv (l.map Mch) →
        (searchMin F alpha l beta bm bv).2 ≤ listMinFrom bv (l.map Mch) ∧
        beta ≤ (searchMin F alpha l beta bm bv).2 ∧
        (bv ≤ beta → searchMin F alpha l beta bm bv = (bm, bv))) ∧
      (listMinFrom bv (l.map Mch) ≤ alpha →
        (searchMin F alpha l beta bm bv).2 ≤ alpha ∧
        listMinFrom bv (l.map Mch) ≤ (searchMin F alpha l beta bm bv).2) ∧
      (alpha < listMinFrom bv (l.map Mch) → listMinFrom bv (l.map Mch) < beta →
        (searchMin F alpha l beta bm bv).2 = listMinFrom bv (l.map Mch) ∧
        ∃ c ∈ l, (searchMin F alpha l beta bm bv).1 = some c ∧
          Mch c = listMinFrom bv (l.map Mch)) := by
  intro l
  induction l with
  | nil =>
      intro beta bm bv _ hmax hab hbv
      simp only [List.map_nil, listMinFrom, searchMin]
      refine ⟨fun hM => ⟨le_refl _, hM, fun _ => trivial⟩, ?_, ?_⟩
      · intro hM
        exact absurd (lt_of_lt_of_le hab hbv) (not_lt.mpr hM)
      · intro _ h2
        exact absurd h2 (not_lt.mpr hbv)
  | cons b rest ih =>
      intro beta bm bv hcs hmax hab hbv
      have hb := hcs b (List.mem_cons_self b rest) beta hmax hab
      have hrest : ∀ x ∈ rest, ∀ t : Int, t ≤ i32_MAX → alpha < t →
          (Mch x ≤ alpha → Mch x ≤ (F x t).2 ∧ (F x t).2 ≤ alpha) ∧
          (t ≤ Mch x → t ≤ (F x t).2 ∧ (F x t).2 ≤ Mch x) ∧
          (alpha < Mch x → Mch x < t → (F x t).2 = Mch x) :=
        fun x hx => hcs x (List.mem_cons_of_mem b hx)
      simp only [List.map_cons, listMinFrom, searchMin_cons, if_lt_eq_min]
      rcases le_or_lt beta (Mch b) with hA | hA'
      · -- child fails high: its window value stays within [beta, Mch b]
        have hvA := hb.2.1 hA
        have hbeta2 : min beta (F b beta).2 = beta := min_eq_left hvA.1
        have hnocut : ¬ min beta (F b beta).2 ≤ alpha := by
          rw [hbeta2]; exact not_le.mpr hab
        rw [if_neg hnocut, hbeta2]
        have hbv2ge : beta ≤ min bv (F b beta).2 := le_min hbv hvA.1
        have hseed : min bv (F b beta).2 ≤ min bv (Mch b) :=
          le_min (min_le_left _ _) (le_trans (min_le_right _ _) hvA.2)
        have hM' : listMinFrom (min bv (F b beta).2) (rest.map Mch) =
            min (listMinFrom (min bv (Mch b)) (rest.map Mch)) (min bv (F b beta).2) :=
          listMinFrom_seed_eq hseed _
        have hIH := ih beta (if (F b beta).2 < bv then some b else bm)
          (min bv (F b beta).2) hrest hmax hab hbv2ge
        refine ⟨?_, ?_, ?_⟩
        · intro hMa
          have hM'ge : beta ≤ listMinFrom (min bv (F b beta).2) (rest.map Mch) := by
            rw [hM']; exact le_min hMa hbv2ge
          obtain ⟨g1, g2, g3⟩ := hIH.1 hM'ge
          refine ⟨le_trans g1 (listMinFrom_mono hseed _), g2, ?_⟩
          · intro halb
            have hnlt : ¬ (F b beta).2 < bv := not_lt.mpr (le_trans halb hvA.1)
            have h4 := g3 (le_trans (min_le_left _ _) halb)
            rw [h4, if_neg hnlt, min_eq_left (le_trans halb hvA.1)]
        · intro hMb
          have hM'eq : listMinFrom (min bv (F b beta).2) (rest.map Mch) =
              listMinFrom (min bv (Mch b)) (rest.map Mch) := by
            rw [hM']
            exact min_eq_left (le_trans (le_of_lt (lt_of_le_of_lt hMb hab)) hbv2ge)
          obtain ⟨g1, g2⟩ := hIH.2.1 (hM'eq.symm ▸ hMb)
          exact ⟨g1, hM'eq ▸ g2⟩
        · intro h1 h2
          have hM'eq : listMinFrom (min bv (F b beta).2) (rest.map Mch) =
              listMinFrom (min bv (Mch b)) (rest.map Mch) := by
            rw [hM']
            exact min_eq_left (le_trans (le_of_lt h2) hbv2ge)
          obtain ⟨g1, c, hc, hcsome, hcM⟩ := hIH.2.2 (hM'eq.symm ▸ h1) (hM'eq.symm ▸ h2)
          exact ⟨hM'eq ▸ g1, c, List.mem_cons_of_mem b hc, hcsome, hM'eq ▸ hcM⟩
      · rcases lt_or_le alpha (Mch b) with hC | hB
        · -- child value strictly inside the window: exact value
          have hvC := hb.2.2 hC hA'
          have hblt : (F b beta).2 < bv := by
            rw [hvC]; exact lt_of_lt_of_le hA' hbv
          have hbeta2 : min beta (F b beta).2 = (F b beta).2 := by
            rw [hvC]; exact min_eq_right hA'.le
          have hnocut : ¬ min beta (F b beta).2 ≤ alpha := by
            rw [hbeta2, hvC]; exact not_le.mpr hC
          rw [if_neg hnocut, hbeta2, if_pos hblt]
          have hseedeq : min bv (Mch b) = (F b beta).2 := by
            rw [hvC]; exact min_eq_right (le_trans hA'.le hbv)
          rw [show min bv (F b beta).2 = (F b beta).2 from
            min_eq_right (le_of_lt hblt), hseedeq]
          have hIH := ih (F b beta).2 (some b) (F b beta).2 hrest
            (le_trans (le_of_lt (by rw [hvC]; exact hA')) hmax) (by rw [hvC]; exact hC)
            (le_refl _)
          refine ⟨?_, hIH.2.1, ?_⟩
          · intro hMa
            have hle : beta ≤ (F b beta).2 := le_trans hMa (listMinFrom_le_seed _ _)
            rw [hvC] at hle
            exact absurd (lt_of_le_of_lt hle hA') (lt_irrefl beta)
          · intro h1 h2
            rcases le_or_lt (F b beta).2 (listMinFrom (F b beta).2 (rest.map Mch)) with
              hMv | hMv
            · have hMeq : listMinFrom (F b beta).2 (rest.map Mch) = (F b beta).2 :=
                le_antisymm (listMinFrom_le_seed _ _) hMv
              obtain ⟨g1, g2, g3⟩ := hIH.1 hMv
              refine ⟨le_antisymm g1 (le_trans hMeq.le g2), b, List.mem_cons_self b rest, ?_, ?_⟩
              · rw [g3 (le_refl _)]
              · rw [hMeq, hvC]
            · obtain ⟨g1, c, hc, hcsome, hcM⟩ := hIH.2.2 h1 hMv
              exact ⟨g1, c, List.mem_cons_of_mem b hc, hcsome, hcM⟩
        · -- child fails low: immediate alpha cutoff
          have hvB := hb.1 hB
          have hblt : (F b beta).2 < bv :=
            lt_of_le_of_lt hvB.2 (lt_of_lt_of_le hab hbv)
          have hcut : min beta (F b beta).2 ≤ alpha :=
            le_trans (min_le_right _ _) hvB.2
          rw [if_pos hcut, if_pos hblt, min_eq_right (le_of_lt hblt)]
          have hMgb : listMinFrom (min bv (Mch b)) (rest.map Mch) ≤ alpha :=
            le_trans (listMinFrom_le_seed _ _) (le_trans (min_le_right _ _) hB)
          refine ⟨?_, ?_, ?_⟩
          · intro hMa
            exact absurd (lt_of_le_of_lt (le_trans hMa hMgb) hab) (lt_irrefl beta)
          · intro _
            exact ⟨hvB.2, le_trans
              (le_trans (listMinFrom_le_seed _ _) (min_le_right bv (Mch b))) hvB.1⟩
          · intro h1 _
            exact absurd (lt_of_lt_of_le h1 hMgb) (lt_irrefl alpha)

theorem alpha_beta_search_succ (gen : BoardState → List BoardState)
    (check : BoardState → PieceColor → Bool) (d : Nat) (b : BoardState)
    (alpha beta : Int) (mx : PieceColor) :
    alpha_beta_search gen check (d + 1) b alpha beta mx =
      if (gen b).isEmpty then
        (if mx = White then
          (if check b White then
            ((none, -99999999 - ((d : Int) + 1)) : Option BoardState × Int)
           else (none, 0))
         else
          (if check b Black then (none, 99999999 + ((d : Int) + 1)) else (none, 0)))
      else
        (if mx = White then
          searchMax (fun x a => alpha_beta_search gen check d x a beta Black)
            beta (sortMovesDesc (gen b)) alpha none i32_MIN
         else
          searchMin (fun x bt => alpha_beta_search gen check d x alpha bt White)
            alpha (sortMovesAsc (gen b)) beta none i32_MAX) := rfl

theorem sortMovesDesc_perm (moves : List BoardState) :
    (sortMovesDesc moves).Perm moves :=
  List.perm_insertionSort _ moves

theorem sortMovesAsc_perm (moves : List BoardState) :
    (sortMovesAsc moves).Perm moves :=
  List.perm_insertionSort _ moves

/-- Fail-soft window specification of `alpha_beta_search` against the
unpruned `minimax` value `m`: if `m` fails low the search returns a value
in `[m, alpha]`, if `m` fails high it returns a value in `[beta, m]`, and
if `m` lies strictly inside the window the search returns exactly `m`. -/
theorem alpha_beta_spec (gen : BoardState → List BoardState)
    (check : BoardState → PieceColor → Bool) :
    ∀ (d : Nat), d ≤ 255 → ∀ (b : BoardState) (mx : PieceColor) (alpha beta : Int),
      evalsBounded gen d b = true →
      i32_MIN ≤ alpha → alpha < beta → beta ≤ i32_MAX →
      (minimax gen check d b mx ≤ alpha →
        minimax gen check d b mx ≤ (alpha_beta_search gen check d b alpha beta mx).2 ∧
        (alpha_beta_search gen check d b alpha beta mx).2 ≤ alpha) ∧
      (beta ≤ minimax gen check d b mx →
        beta ≤ (alpha_beta_search gen check d b alpha beta mx).2 ∧
        (alpha_beta_search gen check d b alpha beta mx).2 ≤ minimax gen check d b mx) ∧
      (alpha < minimax gen check d b mx → minimax gen check d b mx < beta →
        (alpha_beta_search gen check d b alpha beta mx).2 = minimax gen check d b mx) := by
  intro d
  induction d with
  | zero =>
      intro _ b mx alpha beta _ _ _ _
      exact ⟨fun h => ⟨le_refl _, h⟩, fun h => ⟨h, le_refl _⟩, fun _ _ => rfl⟩
  | succ d ih =>
      intro hd b mx alpha beta hev hmin hab hmax
      have hd' : d ≤ 255 := Nat.le_of_succ_le hd
      cases hg : gen b with
      | nil =>
          have hvm : (alpha_beta_search gen check (d + 1) b alpha beta mx).2 =
              minimax gen check (d + 1) b mx := by
            cases mx <;> simp [alpha_beta_search_succ, minimax, hg] <;> split <;> rfl
          rw [hvm]
          exact ⟨fun h => ⟨le_refl _, h⟩, fun h => ⟨h, le_refl _⟩, fun _ _ => rfl⟩
      | cons c cs =>
          have hne : (gen b).isEmpty = false := by rw [hg]; rfl
          have hevAll : ∀ x ∈ gen b, evalsBounded gen d x = true := by
            simp only [evalsBounded, List.all_eq_true] at hev
            exact hev
          have hmemc : c ∈ gen b := hg ▸ List.mem_cons_self c cs
          cases mx with
          | White =>
              have hperm : ((sortMovesDesc (gen b)).map
                  (fun x => minimax gen check d x Black)).Perm
                  ((gen b).map (fun x => minimax gen check d x Black)) :=
                (sortMovesDesc_perm (gen b)).map _
              have hMstar : listMaxFrom i32_MIN
                  ((sortMovesDesc (gen b)).map (fun x => minimax gen check d x Black)) =
                  minimax gen check (d + 1) b White := by
                rw [listMaxFrom_perm hperm, hg]
                simp only [List.map_cons, listMaxFrom]
                rw [max_eq_right (minimax_bounds gen check d c Black hd'
                  (hevAll c hmemc)).1]
                simp [minimax, hg]
              have hcs : ∀ x ∈ sortMovesDesc (gen b), ∀ a : Int, i32_MIN ≤ a → a < beta →
                  (minimax gen check d x Black ≤ a →
                    minimax gen check d x Black ≤
                      (alpha_beta_search gen check d x a beta Black).2 ∧
                    (alpha_beta_search gen check d x a beta Black).2 ≤ a) ∧
                  (beta ≤ minimax gen check d x Black →
                    beta ≤ (alpha_beta_search gen check d x a beta Black).2 ∧
                    (alpha_beta_search gen check d x a beta Black).2 ≤
                      minimax gen check d x Black) ∧
                  (a < minimax gen check d x Black → minimax gen check d x Black < beta →
                    (alpha_beta_search gen check d x a beta Black).2 =
                      minimax gen check d x Black) :=
                fun x hx a hamin habeta =>
                  ih hd' x Black a beta
                    (hevAll x ((sortMovesDesc_perm (gen b)).subset hx)) hamin habeta hmax
              have hloop := searchMax_spec
                (fun x a => alpha_beta_search gen check d x a beta Black)
                (fun x => minimax gen check d x Black) beta
                (sortMovesDesc (gen b)) alpha none i32_MIN hcs hmin hab hmin
              have hrw : alpha_beta_search gen check (d + 1) b alpha beta White =
                  searchMax (fun x a => alpha_beta_search gen check d x a beta Black)
                    beta (sortMovesDesc (gen b)) alpha none i32_MIN := by
                rw [alpha_beta_search_succ, hne]
                simp
              rw [hrw, ← hMstar]
              exact ⟨fun h => ⟨(hloop.1 h).1, (hloop.1 h).2.1⟩, hloop.2.1,
                fun h1 h2 => (hloop.2.2 h1 h2).1⟩
          | Black =>
              have hperm : ((sortMovesAsc (gen b)).map
                  (fun x => minimax gen check d x White)).Perm
                  ((gen b).map (fun x => minimax gen check d x White)) :=
                (sortMovesAsc_perm (gen b)).map _
              have hMstar : listMinFrom i32_MAX
                  ((sortMovesAsc (gen b)).map (fun x => minimax gen check d x White)) =
                  minimax gen check (d + 1) b Black := by
                rw [listMinFrom_perm hperm, hg]
                simp only [List.map_cons, listMinFrom]
                rw [min_eq_right (minimax_bounds gen check d c White hd'
                  (hevAll c hmemc)).2]
                simp [minimax, hg]
              have hcs : ∀ x ∈ sortMovesAsc (gen b), ∀ t : Int, t ≤ i32_MAX → alpha < t →
                  (minimax gen check d x White ≤ alpha →
                    minimax gen check d x White ≤
                      (alpha_beta_search gen check d x alpha t White).2 ∧
                    (alpha_beta_search gen check d x alpha t White).2 ≤ alpha) ∧
                  (t ≤ minimax gen check d x White →
                    t ≤ (alpha_beta_search gen check d x alpha t White).2 ∧
                    (alpha_beta_search gen check d x alpha t White).2 ≤
                      minimax gen check d x White) ∧
                  (alpha < minimax gen check d x White → minimax gen check d x White < t →
                    (alpha_beta_search gen check d x alpha t White).2 =
                      minimax gen check d x White) :=
                fun x hx t htmax halt =>
                  ih hd' x White alpha t
                    (hevAll x ((sortMovesAsc_perm (gen b)).subset hx)) hmin halt htmax
              have hloop := searchMin_spec
                (fun x bt => alpha_beta_search gen check d x alpha bt White)
                (fun x => minimax gen check d x White) alpha
                (sortMovesAsc (gen b)) beta none i32_MAX hcs hmax hab hmax
              have hrw : alpha_beta_search gen check (d + 1) b alpha beta Black =
                  searchMin (fun x bt => alpha_beta_search gen check d x alpha bt White)
                    alpha (sortMovesAsc (gen b)) beta none i32_MAX := by
                rw [alpha_beta_search_succ, hne]
                simp
              rw [hrw, ← hMstar]
              exact ⟨fun h => ⟨(hloop.2.1 h).2, (hloop.2.1 h).1⟩,
                fun h => ⟨(hloop.1 h).2.1, (hloop.1 h).1⟩,
                fun h1 h2 => (hloop.2.2 h1 h2).1⟩

/-- Claim C1: with the widest window `(i32::MIN, i32::MAX)` the alpha-beta
search returns, for every position, every side to maximize and every
depth (with the leaf scores `i32`-representable, as they are by type in
the Rust program), exactly the score of the unpruned full minimax search
of the same tree: neither the `beta ≤ alpha` pruning nor the
move-ordering sorts change the returned score. -/
theorem alpha_beta_search_eq_minimax (gen : BoardState → List BoardState)
    (check : BoardState → PieceColor → Bool) (depth : Nat) (b : BoardState)
    (mx : PieceColor) (hd : depth ≤ 255) (hev : evalsBounded gen depth b = true) :
    (alpha_beta_search gen check depth b i32_MIN i32_MAX mx).2 =
      minimax gen check depth b mx := by
  have hb := minimax_bounds gen check depth b mx hd hev
  have hs := alpha_beta_spec gen check depth hd b mx i32_MIN i32_MAX hev
    (le_refl _) (by norm_num [i32_MIN, i32_MAX]) (le_refl _)
  rcases lt_trichotomy i32_MIN (minimax gen check depth b mx) with h1 | h1 | h1
  · rcases lt_trichotomy (minimax gen check depth b mx) i32_MAX with h2 | h2 | h2
    · exact hs.2.2 h1 h2
    · have h3 := hs.2.1 (le_of_eq h2.symm)
      exact le_antisymm h3.2 (h2.le.trans h3.1)
    · exact absurd h2 (not_lt.mpr hb.2)
  · have h3 := hs.1 (le_of_eq h1.symm)
    exact le_antisymm (h3.2.trans (le_of_eq h1)) h3.1
  · exact absurd h1 (not_lt.mpr hb.1)

/-- Claim C1 witness: a concrete two-successor tree of depth 2. -/
theorem alpha_beta_search_eq_minimax_witness :
    (alpha_beta_search sampleGen sampleCheck 2 (matBoard 10) i32_MIN i32_MAX White).2 =
      minimax sampleGen sampleCheck 2 (matBoard 10) White :=
  alpha_beta_search_eq_minimax sampleGen sampleCheck 2 (matBoard 10) White
    (by norm_num) (by rfl)

theorem searchMax_fst_isSome (F : BoardState → Int → Option BoardState × Int)
    (beta : Int) :
    ∀ (l : List BoardState) (alpha : Int) (bm : Option BoardState) (bv : Int),
      bm.isSome = true → ((searchMax F beta l alpha bm bv).1).isSome = true := by
  intro l
  induction l with
  | nil => intro alpha bm bv h; exact h
  | cons b rest ih =>
      intro alpha bm bv h
      rw [searchMax_cons]
      split
      · by_cases hlt : bv < (F b alpha).2
        · simp [hlt]
        · simpa [hlt] using h
      · refine ih _ _ _ ?_
        by_cases hlt : bv < (F b alpha).2
        · simp [hlt]
        · simpa [hlt] using h

theorem searchMin_fst_isSome (F : BoardState → Int → Option BoardState × Int)
    (alpha : Int) :
    ∀ (l : List BoardState) (beta : Int) (bm : Option BoardState) (bv : Int),
      bm.isSome = true → ((searchMin F alpha l beta bm bv).1).isSome = true := by
  intro l
  induction l with
  | nil => intro beta bm bv h; exact h
  | cons b rest ih =>
      intro beta bm bv h
      rw [searchMin_cons]
      split
      · by_cases hlt : (F b beta).2 < bv
        · simp [hlt]
        · simpa [hlt] using h
      · refine ih _ _ _ ?_
        by_cases hlt : (F b beta).2 < bv
        · simp [hlt]
        · simpa [hlt] using h

theorem searchMax_isSome_of_lt (F : BoardState → Int → Option BoardState × Int)
    (beta : Int) (b : BoardState) (rest : List BoardState) (alpha : Int)
    (bm : Option BoardState) (bv : Int) (h : bv < (F b alpha).2) :
    ((searchMax F beta (b :: rest) alpha bm bv).1).isSome = true := by
  rw [searchMax_cons]
  split
  · simp [h]
  · exact searchMax_fst_isSome F beta rest _ _ _ (by simp [h])

theorem searchMin_isSome_of_lt (F : BoardState → Int → Option BoardState × Int)
    (alpha : Int) (b : BoardState) (rest : List BoardState) (beta : Int)
    (bm : Option BoardState) (bv : Int) (h : (F b beta).2 < bv) :
    ((searchMin F alpha (b :: rest) beta bm bv).1).isSome = true := by
  rw [searchMin_cons]
  split
  · simp [h]
  · exact searchMin_fst_isSome F alpha rest _ _ _ (by simp [h])

theorem searchMax_seed_le (F : BoardState → Int → Option BoardState × Int)
    (beta : Int) :
    ∀ (l : List BoardState) (alpha : Int) (bm : Option BoardState) (bv : Int),
      bv ≤ (searchMax F beta l alpha bm bv).2 := by
  intro l
  induction l with
  | nil => intro alpha bm bv; exact le_refl _
  | cons b rest ih =>
      intro alpha bm bv
      simp only [searchMax_cons, if_lt_eq_max]
      split
      · exact le_max_left _ _
      · exact le_trans (le_max_left _ _) (ih _ _ _)

theorem searchMin_le_seed (F : BoardState → Int → Option BoardState × Int)
    (alpha : Int) :
    ∀ (l : List BoardState) (beta : Int) (bm : Option BoardState) (bv : Int),
      (searchMin F alpha l beta bm bv).2 ≤ bv := by
  intro l
  induction l with
  | nil => intro beta bm bv; exact le_refl _
  | cons b rest ih =>
      intro beta bm bv
      simp only [searchMin_cons, if_lt_eq_min]
      split
      · exact min_le_left _ _
      · exact le_trans (ih _ _ _) (min_le_left _ _)

theorem searchMax_lt_max (F : BoardState → Int → Option BoardState × Int)
    (beta : Int) :
    ∀ (l : List BoardState) (alpha : Int) (bm : Option BoardState) (bv : Int),
      (∀ x ∈ l, ∀ a : Int, (F x a).2 < i32_MAX) → bv < i32_MAX →
      (searchMax F beta l alpha bm bv).2 < i32_MAX := by
  intro l
  induction l with
  | nil => intro alpha bm bv _ h; exact h
  | cons b rest ih =>
      intro alpha bm bv hl h
      simp only [searchMax_cons, if_lt_eq_max]
      split
      · exact max_lt h (hl b (List.mem_cons_self b rest) alpha)
      · exact ih _ _ _ (fun x hx => hl x (List.mem_cons_of_mem b hx))
          (max_lt h (hl b (List.mem_cons_self b rest) alpha))

theorem searchMin_gt_min (F : BoardState → Int → Option BoardState × Int)
    (alpha : Int) :
    ∀ (l : List BoardState) (beta : Int) (bm : Option BoardState) (bv : Int),
      (∀ x ∈ l, ∀ t : Int, i32_MIN < (F x t).2) → i32_MIN < bv →
      i32_MIN < (searchMin F alpha l beta bm bv).2 := by
  intro l
  induction l with
  | nil => intro beta bm bv _ h; exact h
  | cons b rest ih =>
      intro beta bm bv hl h
      simp only [searchMin_cons, if_lt_eq_min]
      split
      · exact lt_min h (hl b (List.mem_cons_self b rest) beta)
      · exact ih _ _ _ (fun x hx => hl x (List.mem_cons_of_mem b hx))
          (lt_min h (hl b (List.mem_cons_self b rest) beta))

theorem searchMax_cons_gt (F : BoardState → Int → Option BoardState × Int)
    (beta : Int) (b : BoardState) (rest : List BoardState) (alpha : Int)
    (bm : Option BoardState) (bv : Int) (h : i32_MIN < (F b alpha).2) :
    i32_MIN < (searchMax F beta (b :: rest) alpha bm bv).2 := by
  simp only [searchMax_cons, if_lt_eq_max]
  split
  · exact lt_of_lt_of_le h (le_max_right _ _)
  · exact lt_of_lt_of_le (lt_of_lt_of_le h (le_max_right bv _))
      (searchMax_seed_le F beta rest _ _ _)

theorem searchMin_cons_lt (F : BoardState → Int → Option BoardState × Int)
    (alpha : Int) (b : BoardState) (rest : List BoardState) (beta : Int)
    (bm : Option BoardState) (bv : Int) (h : (F b beta).2 < i32_MAX) :
    (searchMin F alpha (b :: rest) beta bm bv).2 < i32_MAX := by
  simp only [searchMin_cons, if_lt_eq_min]
  split
  · exact lt_of_le_of_lt (min_le_right _ _) h
  · exact lt_of_le_of_lt
      (le_trans (searchMin_le_seed F alpha rest _ _ _) (min_le_right bv _)) h

theorem evalStrictInRange_iff {e : Int} :
    evalStrictInRange e = true ↔ i32_MIN < e ∧ e < i32_MAX := by
  simp [evalStrictInRange]

/-- Every search value lies strictly between the two sentinels when every
leaf evaluation of the tree does. -/
theorem alpha_beta_value_strict (gen : BoardState → List BoardState)
    (check : BoardState → PieceColor → Bool) :
    ∀ (d : Nat), d ≤ 255 → ∀ (b : BoardState) (mx : PieceColor) (alpha beta : Int),
      evalsStrictBounded gen d b = true →
      i32_MIN < (alpha_beta_search gen check d b alpha beta mx).2 ∧
      (alpha_beta_search gen check d b alpha beta mx).2 < i32_MAX := by
  intro d
  induction d with
  | zero =>
      intro _ b mx alpha beta hb
      exact evalStrictInRange_iff.mp hb
  | succ d ih =>
      intro hd b mx alpha beta hev
      have hd' : d ≤ 255 := Nat.le_of_succ_le hd
      have hdI : (d : Int) ≤ 255 := by exact_mod_cast hd'
      cases hg : gen b with
      | nil =>
          cases mx <;> rw [alpha_beta_search_succ] <;>
            simp only [hg, List.isEmpty_nil, if_true, reduceCtorEq, if_false,
              eq_self_iff_true] <;>
            split <;> constructor <;> simp [i32_MIN, i32_MAX] <;> omega
      | cons c cs =>
          have hevAll : ∀ x ∈ gen b, evalsStrictBounded gen d x = true := by
            simp only [evalsStrictBounded, List.all_eq_true] at hev
            exact hev
          have hne : (gen b).isEmpty = false := by rw [hg]; rfl
          cases mx with
          | White =>
              have hlen : sortMovesDesc (gen b) ≠ [] := by
                intro hnil
                have := (sortMovesDesc_perm (gen b)).length_eq
                rw [hnil, hg] at this
                simp at this
              rcases hs : sortMovesDesc (gen b) with _ | ⟨y, ys⟩
              · exact absurd hs hlen
              have hymem : y ∈ gen b :=
                (sortMovesDesc_perm (gen b)).subset (hs ▸ List.mem_cons_self y ys)
              have hrw : alpha_beta_search gen check (d + 1) b alpha beta White =
                  searchMax (fun x a => alpha_beta_search gen check d x a beta Black)
                    beta (y :: ys) alpha none i32_MIN := by
                rw [alpha_beta_search_succ, hne, hs]
                simp
              rw [hrw]
              constructor
              · exact searchMax_cons_gt _ _ _ _ _ _ _
                  (ih hd' y Black alpha beta (hevAll y hymem)).1
              · refine searchMax_lt_max _ _ _ _ _ _ ?_ (by norm_num [i32_MIN, i32_MAX])
                intro x hx a
                have hxmem : x ∈ gen b :=
                  (sortMovesDesc_perm (gen b)).subset (hs ▸ hx)
                exact (ih hd' x Black a beta (hevAll x hxmem)).2
          | Black =>
              have hlen : sortMovesAsc (gen b) ≠ [] := by
                intro hnil
                have := (sortMovesAsc_perm (gen b)).length_eq
                rw [hnil, hg] at this
                simp at this
              rcases hs : sortMovesAsc (gen b) with _ | ⟨y, ys⟩
              · exact absurd hs hlen
              have hymem : y ∈ gen b :=
                (sortMovesAsc_perm (gen b)).subset (hs ▸ List.mem_cons_self y ys)
              have hrw : alpha_beta_search gen check (d + 1) b alpha beta Black =
                  searchMin (fun x bt => alpha_beta_search gen check d x alpha bt White)
                    alpha (y :: ys) beta none i32_MAX := by
                rw [alpha_beta_search_succ, hne, hs]
                simp
              rw [hrw]
              constructor
              · refine searchMin_gt_min _ _ _ _ _ _ ?_ (by norm_num [i32_MIN, i32_MAX])
                intro x hx t
                have hxmem : x ∈ gen b :=
                  (sortMovesAsc_perm (gen b)).subset (hs ▸ hx)
                exact (ih hd' x White alpha t (hevAll x hxmem)).1
              · exact searchMin_cons_lt _ _ _ _ _ _ _
                  (ih hd' y White alpha beta (hevAll y hymem)).2

/-- Claim C10: the search returns `none` as the successor component
exactly when the depth is 0 or the move generator returns no successors;
whenever the depth is at least 1 and a successor exists, the returned
successor is `some`, because (the hypothesis used here) every leaf score
of the tree lies strictly between `i32::MIN` and `i32::MAX`, so the first
child examined strictly improves the sentinel best value. -/
theorem alpha_beta_search_none_iff (gen : BoardState → List BoardState)
    (check : BoardState → PieceColor → Bool) (depth : Nat) (b : BoardState)
    (alpha beta : Int) (mx : PieceColor) (hd : depth ≤ 255)
    (hev : evalsStrictBounded gen depth b = true) :
    (alpha_beta_search gen check depth b alpha beta mx).1 = none ↔
      depth = 0 ∨ gen b = [] := by
  constructor
  · intro hnone
    by_contra hcon
    push_neg at hcon
    obtain ⟨hdne, hgne⟩ := hcon
    obtain ⟨d, rfl⟩ : ∃ d, depth = d + 1 := ⟨depth - 1, by omega⟩
    have hne : (gen b).isEmpty = false := by
      cases hgl : gen b with
      | nil => exact absurd hgl hgne
      | cons c cs => rfl
    have hd' : d ≤ 255 := Nat.le_of_succ_le hd
    have hevAll : ∀ x ∈ gen b, evalsStrictBounded gen d x = true := by
      simp only [evalsStrictBounded, List.all_eq_true] at hev
      exact hev
    cases mx with
    | White =>
        rcases hs : sortMovesDesc (gen b) with _ | ⟨y, ys⟩
        · have hlen := (sortMovesDesc_perm (gen b)).length_eq
          rw [hs] at hlen
          cases hgl : gen b with
          | nil => exact absurd hgl hgne
          | cons c cs => rw [hgl] at hlen; simp at hlen
        · have hymem : y ∈ gen b :=
            (sortMovesDesc_perm (gen b)).subset (hs ▸ List.mem_cons_self y ys)
          have hrw : alpha_beta_search gen check (d + 1) b alpha beta White =
              searchMax (fun x a => alpha_beta_search gen check d x a beta Black)
                beta (y :: ys) alpha none i32_MIN := by
            rw [alpha_beta_search_succ, hne, hs]
            simp
          have hsome := searchMax_isSome_of_lt
            (fun x a => alpha_beta_search gen check d x a beta Black)
            beta y ys alpha none i32_MIN
            ((alpha_beta_value_strict gen check d hd' y Black alpha beta
              (hevAll y hymem)).1)
          rw [hrw] at hnone
          rw [hnone] at hsome
          simp at hsome
    | Black =>
        rcases hs : sortMovesAsc (gen b) with _ | ⟨y, ys⟩
        · have hlen := (sortMovesAsc_perm (gen b)).length_eq
          rw [hs] at hlen
          cases hgl : gen b with
          | nil => exact absurd hgl hgne
          | cons c cs => rw [hgl] at hlen; simp at hlen
        · have hymem : y ∈ gen b :=
            (sortMovesAsc_perm (gen b)).subset (hs ▸ List.mem_cons_self y ys)
          have hrw : alpha_beta_search gen check (d + 1) b alpha beta Black =
              searchMin (fun x bt => alpha_beta_search gen check d x alpha bt White)
                alpha (y :: ys) beta none i32_MAX := by
            rw [alpha_beta_search_succ, hne, hs]
            simp
          have hsome := searchMin_isSome_of_lt
            (fun x bt => alpha_beta_search gen check d x alpha bt White)
            alpha y ys beta none i32_MAX
            ((alpha_beta_value_strict gen check d hd' y White alpha beta
              (hevAll y hymem)).2)
          rw [hrw] at hnone
          rw [hnone] at hsome
          simp at hsome
  · rintro (rfl | hgl)
    · rfl
    · cases depth with
      | zero => rfl
      | succ d =>
          cases mx <;> rw [alpha_beta_search_succ] <;> simp [hgl] <;> split <;> rfl

/-- Claim C10 witness: at depth 1 from a position with two successors and
strictly bounded leaf scores, the equivalence holds concretely. -/
theorem alpha_beta_search_none_iff_witness :
    ((alpha_beta_search sampleGen sampleCheck 1 (matBoard 10)
        i32_MIN i32_MAX White).1 = none ↔
      (1 : Nat) = 0 ∨ sampleGen (matBoard 10) = []) :=
  alpha_beta_search_none_iff sampleGen sampleCheck 1 (matBoard 10)
    i32_MIN i32_MAX White (by norm_num) (by rfl)

/-- Claim C6: the mate score magnitude `MATE_BASE + remaining_depth` is
strictly larger when the mate is detected with more remaining depth
(fewer plies from the root) — for Black mated (positive scores) and for
White mated (negative scores) alike — and consequently, at a node of the
side delivering mate searched with the widest window, when one successor
leads to a forced-mate line whose value is the mate score with more
remaining depth while every other successor's value is strictly worse
for that side (in particular, deeper mates with their strictly smaller
magnitudes), the search selects that shallower-mate successor: the side
delivering mate does not delay a forced mate.  Parts 3 and 4 require the
shallower mate line only through its minimax value, so the mate may sit
arbitrarily deep below the chosen successor. -/
theorem faster_mate_preferred (gen : BoardState → List BoardState)
    (check : BoardState → PieceColor → Bool) :
    (∀ (b1 b2 : BoardState) (d1 d2 : Nat) (alpha beta : Int),
      gen b1 = [] → gen b2 = [] → check b1 Black = true → check b2 Black = true →
      1 ≤ d2 → d2 < d1 →
      (alpha_beta_search gen check d2 b2 alpha beta Black).2 <
        (alpha_beta_search gen check d1 b1 alpha beta Black).2) ∧
    (∀ (b1 b2 : BoardState) (d1 d2 : Nat) (alpha beta : Int),
      gen b1 = [] → gen b2 = [] → check b1 White = true → check b2 White = true →
      1 ≤ d2 → d2 < d1 →
      (alpha_beta_search gen check d1 b1 alpha beta White).2 <
        (alpha_beta_search gen check d2 b2 alpha beta White).2) ∧
    (∀ (D r1 : Nat) (root c1 : BoardState),
      1 ≤ D → D ≤ 255 → r1 ≤ 255 → evalsBounded gen D root = true →
      c1 ∈ gen root →
      minimax gen check (D - 1) c1 Black = 99999999 + (r1 : Int) →
      (∀ c ∈ gen root, c ≠ c1 →
        minimax gen check (D - 1) c Black < 99999999 + (r1 : Int)) →
      alpha_beta_search gen check D root i32_MIN i32_MAX White =
        (some c1, 99999999 + (r1 : Int))) ∧
    (∀ (D r1 : Nat) (root c1 : BoardState),
      1 ≤ D → D ≤ 255 → r1 ≤ 255 → evalsBounded gen D root = true →
      c1 ∈ gen root →
      minimax gen check (D - 1) c1 White = -(99999999 + (r1 : Int)) →
      (∀ c ∈ gen root, c ≠ c1 →
        -(99999999 + (r1 : Int)) < minimax gen check (D - 1) c White) →
      alpha_beta_search gen check D root i32_MIN i32_MAX Black =
        (some c1, -(99999999 + (r1 : Int)))) := by
  refine ⟨?_, ?_, ?_, ?_⟩
  · intro b1 b2 d1 d2 alpha beta hg1 hg2 hc1 hc2 hd2 hlt
    obtain ⟨e, rfl⟩ : ∃ e, d2 = e + 1 := ⟨d2 - 1, by omega⟩
    obtain ⟨f, rfl⟩ : ∃ f, d1 = f + 1 := ⟨d1 - 1, by omega⟩
    have hv2 : (alpha_beta_search gen check (e + 1) b2 alpha beta Black).2 =
        99999999 + ((e : Int) + 1) := by
      rw [alpha_beta_search_succ]
      simp [hg2, hc2]
    have hv1 : (alpha_beta_search gen check (f + 1) b1 alpha beta Black).2 =
        99999999 + ((f : Int) + 1) := by
      rw [alpha_beta_search_succ]
      simp [hg1, hc1]
    rw [hv1, hv2]
    have : (e : Int) < (f : Int) := by exact_mod_cast Nat.lt_of_succ_lt_succ hlt
    omega
  · intro b1 b2 d1 d2 alpha beta hg1 hg2 hc1 hc2 hd2 hlt
    obtain ⟨e, rfl⟩ : ∃ e, d2 = e + 1 := ⟨d2 - 1, by omega⟩
    obtain ⟨f, rfl⟩ : ∃ f, d1 = f + 1 := ⟨d1 - 1, by omega⟩
    have hv2 : (alpha_beta_search gen check (e + 1) b2 alpha beta White).2 =
        -99999999 - ((e : Int) + 1) := by
      rw [alpha_beta_search_succ]
      simp [hg2, hc2]
    have hv1 : (alpha_beta_search gen check (f + 1) b1 alpha beta White).2 =
        -99999999 - ((f : Int) + 1) := by
      rw [alpha_beta_search_succ]
      simp [hg1, hc1]
    rw [hv1, hv2]
    have : (e : Int) < (f : Int) := by exact_mod_cast Nat.lt_of_succ_lt_succ hlt
    omega
  · intro D r1 root c1 hD1 hD255 hr255 hev hmem hm1 hothers
    obtain ⟨d, rfl⟩ : ∃ d, D = d + 1 := ⟨D - 1, by omega⟩
    have hd' : d ≤ 255 := Nat.le_of_succ_le hD255
    have hDsub : (d + 1) - 1 = d := rfl
    rw [hDsub] at hm1 hothers
    have hr1I : (r1 : Int) ≤ 255 := by exact_mod_cast hr255
    have hr1I0 : (0 : Int) ≤ (r1 : Int) := Int.ofNat_nonneg r1
    have hne : (gen root).isEmpty = false := by
      cases hg : gen root with
      | nil => rw [hg] at hmem; cases hmem
      | cons c cs => rfl
    have hevAll : ∀ x ∈ gen root, evalsBounded gen d x = true := by
      simp only [evalsBounded, List.all_eq_true] at hev
      exact hev
    have hcs : ∀ x ∈ sortMovesDesc (gen root), ∀ a : Int, i32_MIN ≤ a → a < i32_MAX →
        (minimax gen check d x Black ≤ a →
          minimax gen check d x Black ≤
            (alpha_beta_search gen check d x a i32_MAX Black).2 ∧
          (alpha_beta_search gen check d x a i32_MAX Black).2 ≤ a) ∧
        (i32_MAX ≤ minimax gen check d x Black →
          i32_MAX ≤ (alpha_beta_search gen check d x a i32_MAX Black).2 ∧
          (alpha_beta_search gen check d x a i32_MAX Black).2 ≤
            minimax gen check d x Black) ∧
        (a < minimax gen check d x Black → minimax gen check d x Black < i32_MAX →
          (alpha_beta_search gen check d x a i32_MAX Black).2 =
            minimax gen check d x Black) :=
      fun x hx a hamin habeta =>
        alpha_beta_spec gen check d hd' x Black a i32_MAX
          (hevAll x ((sortMovesDesc_perm (gen root)).subset hx)) hamin habeta (le_refl _)
    have hloop := searchMax_spec
      (fun x a => alpha_beta_search gen check d x a i32_MAX Black)
      (fun x => minimax gen check d x Black) i32_MAX
      (sortMovesDesc (gen root)) i32_MIN none i32_MIN hcs (le_refl _)
      (by norm_num [i32_MIN, i32_MAX]) (le_refl _)
    have hc1mem : minimax gen check d c1 Black ∈
        (sortMovesDesc (gen root)).map (fun x => minimax gen check d x Black) :=
      List.mem_map_of_mem _ ((sortMovesDesc_perm (gen root)).mem_iff.mpr hmem)
    have hub : ∀ x ∈ (sortMovesDesc (gen root)).map
        (fun x => minimax gen check d x Black), x ≤ 99999999 + (r1 : Int) := by
      intro x hx
      rcases List.mem_map.mp hx with ⟨y, hy, rfl⟩
      have hymem : y ∈ gen root := (sortMovesDesc_perm (gen root)).subset hy
      by_cases hyc : y = c1
      · rw [hyc, hm1]
      · exact le_of_lt (hothers y hymem hyc)
    have hMeq : listMaxFrom i32_MIN
        ((sortMovesDesc (gen root)).map (fun x => minimax gen check d x Black)) =
        99999999 + (r1 : Int) := by
      refine le_antisymm (listMaxFrom_le ?_ hub) ?_
      · simp only [i32_MIN]; omega
      · rw [← hm1]
        exact mem_le_listMaxFrom _ hc1mem
    have hMlt : (99999999 : Int) + (r1 : Int) < i32_MAX := by
      simp only [i32_MAX]; omega
    have hMgt : i32_MIN < (99999999 : Int) + (r1 : Int) := by
      simp only [i32_MIN]; omega
    have hexact := hloop.2.2 (hMeq ▸ hMgt) (hMeq ▸ hMlt)
    obtain ⟨hr2, c, hcmem, hcsome, hcM⟩ := hexact
    have hceq : c = c1 := by
      by_contra hnc
      have hcgen : c ∈ gen root := (sortMovesDesc_perm (gen root)).subset hcmem
      have hlt := hothers c hcgen hnc
      have hcM2 : minimax gen check d c Black = 99999999 + (r1 : Int) := by
        have h0 : minimax gen check d c Black = listMaxFrom i32_MIN
            ((sortMovesDesc (gen root)).map (fun x => minimax gen check d x Black)) := hcM
        rw [h0, hMeq]
      rw [hcM2] at hlt
      exact absurd hlt (lt_irrefl _)
    have hrw : alpha_beta_search gen check (d + 1) root i32_MIN i32_MAX White =
        searchMax (fun x a => alpha_beta_search gen check d x a i32_MAX Black)
          i32_MAX (sortMovesDesc (gen root)) i32_MIN none i32_MIN := by
      rw [alpha_beta_search_succ, hne]
      simp
    rw [hrw]
    refine Prod.ext_iff.mpr ⟨?_, ?_⟩
    · rw [hcsome, hceq]
    · rw [hr2, hMeq]
  · intro D r1 root c1 hD1 hD255 hr255 hev hmem hm1 hothers
    obtain ⟨d, rfl⟩ : ∃ d, D = d + 1 := ⟨D - 1, by omega⟩
    have hd' : d ≤ 255 := Nat.le_of_succ_le hD255
    have hDsub : (d + 1) - 1 = d := rfl
    rw [hDsub] at hm1 hothers
    have hr1I : (r1 : Int) ≤ 255 := by exact_mod_cast hr255
    have hr1I0 : (0 : Int) ≤ (r1 : Int) := Int.ofNat_nonneg r1
    have hne : (gen root).isEmpty = false := by
      cases hg : gen root with
      | nil => rw [hg] at hmem; cases hmem
      | cons c cs => rfl
    have hevAll : ∀ x ∈ gen root, evalsBounded gen d x = true := by
      simp only [evalsBounded, List.all_eq_true] at hev
      exact hev
    have hcs : ∀ x ∈ sortMovesAsc (gen root), ∀ t : Int, t ≤ i32_MAX → i32_MIN < t →
        (minimax gen check d x White ≤ i32_MIN →
          minimax gen check d x White ≤
            (alpha_beta_search gen check d x i32_MIN t White).2 ∧
          (alpha_beta_search gen check d x i32_MIN t White).2 ≤ i32_MIN) ∧
        (t ≤ minimax gen check d x White →
          t ≤ (alpha_beta_search gen check d x i32_MIN t White).2 ∧
          (alpha_beta_search gen check d x i32_MIN t White).2 ≤
            minimax gen check d x White) ∧
        (i32_MIN < minimax gen check d x White → minimax gen check d x White < t →
          (alpha_beta_search gen check d x i32_MIN t White).2 =
            minimax gen check d x White) :=
      fun x hx t htmax hmint =>
        alpha_beta_spec gen check d hd' x White i32_MIN t
          (hevAll x ((sortMovesAsc_perm (gen root)).subset hx)) (le_refl _) hmint htmax
    have hloop := searchMin_spec
      (fun x bt => alpha_beta_search gen check d x i32_MIN bt White)
      (fun x => minimax gen check d x White) i32_MIN
      (sortMovesAsc (gen root)) i32_MAX none i32_MAX hcs (le_refl _)
      (by norm_num [i32_MIN, i32_MAX]) (le_refl _)
    have hc1mem : minimax gen check d c1 White ∈
        (sortMovesAsc (gen root)).map (fun x => minimax gen check d x White) :=
      List.mem_map_of_mem _ ((sortMovesAsc_perm (gen root)).mem_iff.mpr hmem)
    have hlb : ∀ x ∈ (sortMovesAsc (gen root)).map
        (fun x => minimax gen check d x White), -(99999999 + (r1 : Int)) ≤ x := by
      intro x hx
      rcases List.mem_map.mp hx with ⟨y, hy, rfl⟩
      have hymem : y ∈ gen root := (sortMovesAsc_perm (gen root)).subset hy
      by_cases hyc : y = c1
      · rw [hyc, hm1]
      · exact le_of_lt (hothers y hymem hyc)
    have hMeq : listMinFrom i32_MAX
        ((sortMovesAsc (gen root)).map (fun x => minimax gen check d x White)) =
        -(99999999 + (r1 : Int)) := by
      refine le_antisymm ?_ (le_listMinFrom ?_ hlb)
      · rw [← hm1]
        exact listMinFrom_le_mem _ hc1mem
      · simp only [i32_MAX]; omega
    have hMlt : -((99999999 : Int) + (r1 : Int)) < i32_MAX := by
      simp only [i32_MAX]; omega
    have hMgt : i32_MIN < -((99999999 : Int) + (r1 : Int)) := by
      simp only [i32_MIN]; omega
    have hexact := hloop.2.2 (hMeq ▸ hMgt) (hMeq ▸ hMlt)
    obtain ⟨hr2, c, hcmem, hcsome, hcM⟩ := hexact
    have hceq : c = c1 := by
      by_contra hnc
      have hcgen : c ∈ gen root := (sortMovesAsc_perm (gen root)).subset hcmem
      have hlt := hothers c hcgen hnc
      have hcM2 : minimax gen check d c White = -(99999999 + (r1 : Int)) := by
        have h0 : minimax gen check d c White = listMinFrom i32_MAX
            ((sortMovesAsc (gen root)).map (fun x => minimax gen check d x White)) := hcM
        rw [h0, hMeq]
      rw [hcM2] at hlt
      exact absurd hlt (lt_irrefl _)
    have hrw : alpha_beta_search gen check (d + 1) root i32_MIN i32_MAX Black =
        searchMin (fun x bt => alpha_beta_search gen check d x i32_MIN bt White)
          i32_MIN (sortMovesAsc (gen root)) i32_MAX none i32_MAX := by
      rw [alpha_beta_search_succ, hne]
      simp
    rw [hrw]
    refine Prod.ext_iff.mpr ⟨?_, ?_⟩
    · rw [hcsome, hceq]
    · rw [hr2, hMeq]

/-- Claim C6 witness: mate-score monotonicity at a Black-mated and at a
White-mated terminal, selection by White of a successor whose forced mate
sits three plies below it (over a stalemate sibling), and selection by
Black of an immediate White-mate successor. -/
theorem faster_mate_preferred_witness :
    ((alpha_beta_search mateGen2 mateCheck2 1 (matBoard 6)
        i32_MIN i32_MAX Black).2 <
      (alpha_beta_search mateGen2 mateCheck2 2 (matBoard 6)
        i32_MIN i32_MAX Black).2) ∧
    ((alpha_beta_search mateGen2 mateCheck2 2 (matBoard 21)
        i32_MIN i32_MAX White).2 <
      (alpha_beta_search mateGen2 mateCheck2 1 (matBoard 21)
        i32_MIN i32_MAX White).2) ∧
    (alpha_beta_search mateGen2 mateCheck2 4 (matBoard 10) i32_MIN i32_MAX White =
      (some (matBoard 4), 99999999 + ((1 : Nat) : Int))) ∧
    (alpha_beta_search mateGen2 mateCheck2 2 (matBoard 20) i32_MIN i32_MAX Black =
      (some (matBoard 21), -(99999999 + ((1 : Nat) : Int)))) := by
  refine ⟨?_, ?_, ?_, ?_⟩
  · exact (faster_mate_preferred mateGen2 mateCheck2).1 (matBoard 6) (matBoard 6)
      2 1 i32_MIN i32_MAX rfl rfl rfl rfl (by norm_num) (by norm_num)
  · exact (faster_mate_preferred mateGen2 mateCheck2).2.1 (matBoard 21) (matBoard 21)
      2 1 i32_MIN i32_MAX rfl rfl rfl rfl (by norm_num) (by norm_num)
  · refine (faster_mate_preferred mateGen2 mateCheck2).2.2.1 4 1
      (matBoard 10) (matBoard 4) (by norm_num) (by norm_num) (by norm_num)
      (by rfl) (List.mem_cons_self _ _) (by rfl) ?_
    intro c hc hnc
    rcases List.mem_cons.mp hc with rfl | hc2
    · exact absurd rfl hnc
    · rcases List.mem_cons.mp hc2 with rfl | hc3
      · rw [show minimax mateGen2 mateCheck2 (4 - 1) (matBoard 2) Black = 0 from rfl]
        norm_num
      · cases hc3
  · refine (faster_mate_preferred mateGen2 mateCheck2).2.2.2 2 1
      (matBoard 20) (matBoard 21) (by norm_num) (by norm_num) (by norm_num)
      (by rfl) (List.mem_cons_self _ _) (by rfl) ?_
    intro c hc hnc
    rcases List.mem_cons.mp hc with rfl | hc2
    · exact absurd rfl hnc
    · rcases List.mem_cons.mp hc2 with rfl | hc3
      · rw [show minimax mateGen2 mateCheck2 (2 - 1) (matBoard 22) White = 0 from rfl]
        norm_num
      · cases hc3

theorem searchMaxO_eq (fo : BoardState → Int → Option (Option BoardState × Int))
    (f : BoardState → Int → Option BoardState × Int) (beta : Int) :
    ∀ (l : List BoardState) (alpha : Int) (bm : Option BoardState) (bv : Int),
      (∀ x ∈ l, ∀ a : Int, fo x a = some (f x a)) →
      searchMaxO fo beta l alpha bm bv = some (searchMax f beta l alpha bm bv) := by
  intro l
  induction l with
  | nil => intro alpha bm bv _; rfl
  | cons b rest ih =>
      intro alpha bm bv h
      simp only [searchMaxO, h b (List.mem_cons_self b rest), searchMax_cons]
      split
      · rfl
      · exact ih _ _ _ (fun x hx => h x (List.mem_cons_of_mem b hx))

theorem searchMinO_eq (fo : BoardState → Int → Option (Option BoardState × Int))
    (f : BoardState → Int → Option BoardState × Int) (alpha : Int) :
    ∀ (l : List BoardState) (beta : Int) (bm : Option BoardState) (bv : Int),
      (∀ x ∈ l, ∀ t : Int, fo x t = some (f x t)) →
      searchMinO fo alpha l beta bm bv = some (searchMin f alpha l beta bm bv) := by
  intro l
  induction l with
  | nil => intro beta bm bv _; rfl
  | cons b rest ih =>
      intro beta bm bv h
      simp only [searchMinO, h b (List.mem_cons_self b rest), searchMin_cons]
      split
      · rfl
      · exact ih _ _ _ (fun x hx => h x (List.mem_cons_of_mem b hx))

theorem alpha_beta_search_fuel_succ (gen : BoardState → List BoardState)
    (check : BoardState → PieceColor → Bool) (g d : Nat) (b : BoardState)
    (alpha beta : Int) (mx : PieceColor) :
    alpha_beta_search_fuel gen check (g + 1) (d + 1) b alpha beta mx =
      if (gen b).isEmpty then
        (if mx = White then
          (if check b White then
            some ((none, -99999999 - ((d : Int) + 1)) : Option BoardState × Int)
           else some (none, 0))
         else
          (if check b Black then some (none, 99999999 + ((d : Int) + 1))
           else some (none, 0)))
      else
        (if mx = White then
          searchMaxO (fun x a => alpha_beta_search_fuel gen check g d x a beta Black)
            beta (sortMovesDesc (gen b)) alpha none i32_MIN
         else
          searchMinO (fun x bt => alpha_beta_search_fuel gen check g d x alpha bt White)
            alpha (sortMovesAsc (gen b)) beta none i32_MAX) := rfl

/-- Claim C8: the search terminates on every input.  Each recursive call
runs at depth `depth - 1` under the guard `depth ≠ 0`, so depth strictly
decreases along every recursion path, and each node only iterates over
the finite successor list: the fuel-instrumented search, which charges
one fuel unit per recursion level and fails when fuel runs out, always
completes with any fuel exceeding the depth, returning the value of the
total function `alpha_beta_search` — for every move generator, i.e. with
no error path of its own. -/
theorem alpha_beta_search_total (gen : BoardState → List BoardState)
    (check : BoardState → PieceColor → Bool) :
    ∀ (depth fuel : Nat) (b : BoardState) (alpha beta : Int) (mx : PieceColor),
      depth < fuel →
      alpha_beta_search_fuel gen check fuel depth b alpha beta mx =
        some (alpha_beta_search gen check depth b alpha beta mx) := by
  intro depth
  induction depth with
  | zero =>
      intro fuel b alpha beta mx hf
      obtain ⟨g, rfl⟩ : ∃ g, fuel = g + 1 := ⟨fuel - 1, by omega⟩
      rfl
  | succ d ih =>
      intro fuel b alpha beta mx hf
      obtain ⟨g, rfl⟩ : ∃ g, fuel = g + 1 := ⟨fuel - 1, by omega⟩
      have hg : d < g := by omega
      rw [alpha_beta_search_fuel_succ, alpha_beta_search_succ]
      by_cases he : (gen b).isEmpty
      · rw [if_pos he, if_pos he]
        cases mx <;> split <;> split <;> rfl
      · rw [if_neg he, if_neg he]
        cases mx with
        | White =>
            simp only [if_pos rfl]
            exact searchMaxO_eq _ _ beta _ alpha none i32_MIN
              (fun x _ a => ih g x a beta Black hg)
        | Black =>
            simp only [reduceCtorEq, if_false]
            exact searchMinO_eq _ _ alpha _ beta none i32_MAX
              (fun x _ t => ih g x alpha t White hg)

/-- Claim C8 witness: with fuel 2 the instrumented search completes a
depth-1 search of a concrete two-successor position. -/
theorem alpha_beta_search_total_witness :
    alpha_beta_search_fuel sampleGen sampleCheck 2 1 (matBoard 10)
        i32_MIN i32_MAX White =
      some (alpha_beta_search sampleGen sampleCheck 1 (matBoard 10)
        i32_MIN i32_MAX White) :=
  alpha_beta_search_total sampleGen sampleCheck 1 2 (matBoard 10)
    i32_MIN i32_MAX White (by norm_num)

theorem foldl_add_int (g : Nat → Int) :
    ∀ (l : List Nat) (init : Int),
      l.foldl (fun acc x => acc + g x) init = init + (l.map g).sum := by
  intro l
  induction l with
  | nil => intro init; simp
  | cons x l ih =>
      intro init
      simp only [List.foldl_cons, List.map_cons, List.sum_cons]
      rw [ih (init + g x)]
      ring

theorem get_pos_eval_core_eq_table (k : PieceKind) (color : PieceColor)
    (row col clock : Nat) :
    get_pos_eval_core k color row col clock =
      tableAt (pieceTable k clock) (orientRow color row) (col - BOARD_START) := by
  cases k <;> try rfl
  simp only [get_pos_eval_core, pieceTable]
  by_cases h : 30 < clock <;> simp [h]

theorem eval_step_eq (board : BoardState) (row col : Nat) (acc : Int) :
    (match board.board row col with
      | Square.Full piece =>
          let square_eval := (get_pos_evaluation row col board piece.color).getD 0
          if piece.color = White then acc + square_eval else acc - square_eval
      | _ => acc) = acc + squareWeight board row col := by
  cases h : board.board row col with
  | Empty => simp [squareWeight, h]
  | Boundary => simp [squareWeight, h]
  | Full p =>
      simp only [squareWeight, h, get_pos_evaluation, Option.getD_some,
        get_pos_eval_core_eq_table]
      cases hc : p.color <;> simp <;> ring

theorem get_evaluation_sum (board : BoardState) :
    get_evaluation board =
      board.white_total_piece_value - board.black_total_piece_value +
        (boardRange.map (fun row =>
          (boardRange.map (fun col => squareWeight board row col)).sum)).sum := by
  unfold get_evaluation
  have hinner : ∀ (row : Nat) (acc : Int),
      boardRange.foldl (fun acc col =>
        match board.board row col with
        | Square.Full piece =>
            let square_eval := (get_pos_evaluation row col board piece.color).getD 0
            if piece.color = White then acc + square_eval else acc - square_eval
        | _ => acc) acc =
      acc + (boardRange.map (fun col => squareWeight board row col)).sum := by
    intro row acc
    rw [List.foldl_ext _ (fun acc col => acc + squareWeight board row col) acc
      (fun a c _ => eval_step_eq board row c a)]
    exact foldl_add_int _ boardRange acc
  rw [List.foldl_ext _ (fun acc row =>
      acc + (boardRange.map (fun col => squareWeight board row col)).sum) _
    (fun a r _ => hinner r a)]
  exact foldl_add_int _ boardRange _

theorem mem_boardRange_iff {x : Nat} : x ∈ boardRange ↔ 2 ≤ x ∧ x < 10 := by
  rw [boardRange, List.mem_range']
  constructor
  · rintro ⟨i, hi, rfl⟩
    constructor
    · simp [BOARD_START]
    · simp only [BOARD_START, BOARD_END] at hi ⊢
      omega
  · intro h
    exact ⟨x - 2, by simp only [BOARD_START, BOARD_END]; omega,
      by simp only [BOARD_START]; omega⟩

theorem sum_range12_eq (f : Nat → Int)
    (h0 : ∀ x, x < 12 → x < 2 ∨ 10 ≤ x → f x = 0) :
    ((List.range 12).map f).sum = (boardRange.map f).sum := by
  have hr : List.range 12 = [0, 1] ++ boardRange ++ [10, 11] := by
    simp only [boardRange, BOARD_START, BOARD_END]
    decide
  rw [hr]
  simp only [List.map_append, List.sum_append, List.map_cons, List.map_nil,
    List.sum_cons, List.sum_nil]
  rw [h0 0 (by norm_num) (by norm_num), h0 1 (by norm_num) (by norm_num),
    h0 10 (by norm_num) (by norm_num), h0 11 (by norm_num) (by norm_num)]
  ring

/-- Claim C4: for every well-formed position (no piece on the sentinel
border), `get_evaluation` equals the material difference
`whiteTotalPieceValue - blackTotalPieceValue` plus, for every occupied
square of the grid, the per-piece-kind 8×8 table weight looked up with
the row translated into the owner's orientation (White: `row -
BOARD_START`; Black: `9 - row`), added for White pieces and subtracted
for Black pieces. -/
theorem get_evaluation_eq_spec (board : BoardState)
    (hwf : wellFormedBoard board = true) :
    get_evaluation board = spec_evaluation board := by
  have hsq0 : ∀ r c : Nat, r < 12 → c < 12 →
      (r < 2 ∨ 10 ≤ r ∨ c < 2 ∨ 10 ≤ c) → squareWeight board r c = 0 := by
    intro r c hr hc hout
    simp only [wellFormedBoard, List.all_eq_true, List.mem_range] at hwf
    have h1 := hwf r hr c hc
    simp only [BOARD_START, BOARD_END] at h1
    rw [if_pos hout] at h1
    simp only [Bool.not_eq_true'] at h1
    unfold squareWeight
    cases hb : board.board r c with
    | Empty => rfl
    | Boundary => rfl
    | Full p => rw [hb] at h1; simp [Square.isFull] at h1
  unfold spec_evaluation
  rw [get_evaluation_sum]
  congr 1
  have hrow0 : ∀ r, r < 12 → r < 2 ∨ 10 ≤ r →
      ((List.range 12).map (fun col => squareWeight board r col)).sum = 0 := by
    intro r hr hout
    refine List.sum_eq_zero ?_
    intro x hx
    rcases List.mem_map.mp hx with ⟨c, hc, rfl⟩
    exact hsq0 r c hr (List.mem_range.mp hc)
      (by rcases hout with h | h
          · exact Or.inl h
          · exact Or.inr (Or.inl h))
  rw [sum_range12_eq _ hrow0]
  refine congrArg List.sum (List.map_congr_left ?_)
  intro r hrmem
  have hr := mem_boardRange_iff.mp hrmem
  refine (sum_range12_eq _ ?_).symm
  intro c hc hout
  exact hsq0 r c (by omega) hc
    (by rcases hout with h | h
        · exact Or.inr (Or.inr (Or.inl h))
        · exact Or.inr (Or.inr (Or.inr h)))

/-- Claim C4 witness: the one-pawn board is well-formed and its
evaluation matches the spec formula. -/
theorem get_evaluation_eq_spec_witness :
    get_evaluation pawnBoard = spec_evaluation pawnBoard :=
  get_evaluation_eq_spec pawnBoard (by decide)

end ChessEngine
